import Mathlib

/-!
# Verification of the oomi-cli project-materialization pipeline

A shallow embedding, in Lean 4, of the oomi-cli WordPress scaffolding tool:
the pure string utilities (`deriveRepoName`, `slugify`,
`generateWordPressGitignore`, the `style.css` metadata rewrite of
`applyThemeMeta`), the license gate (`validateLicense`), and the
`create-project` orchestration (download / extract / copy / clone / ignore-file
write with all-or-nothing rollback), together with theorems settling the
specification's claims about them.

Strings are manipulated at the `List Char` level (`String.data` /
`String.mk` at the boundaries) so that list induction is available; every
definition mirrors the JavaScript source step by step.
-/

/-- The set of characters treated as whitespace here: the ASCII part of
JavaScript's `\s` class and of `String.prototype.trim` (space, tab, LF, CR,
vertical tab, form feed).  The sources only ever meet ASCII whitespace. -/
def jsWsChar (c : Char) : Bool :=
  c == ' ' || c == '\t' || c == '\n' || c == '\r' || c == '\x0b' || c == '\x0c'

/-- Drop a maximal trailing run of characters satisfying `p`
(the `replace(/X+$/, '')` idiom). -/
def dropTrailingIf (p : Char → Bool) : List Char → List Char
  | [] => []
  | c :: cs =>
    match dropTrailingIf p cs with
    | [] => if p c then [] else [c]
    | t => c :: t

/-- JavaScript `String.prototype.trim` on a character list: drop leading and
trailing whitespace. -/
def trimChars (l : List Char) : List Char :=
  dropTrailingIf jsWsChar (l.dropWhile jsWsChar)

/-- JavaScript `str.trim()`. -/
def jsTrimString (s : String) : String :=
  String.mk (trimChars s.data)

/-- JavaScript `str.split(sep)` for a single-character separator:
splitting the empty list yields `[[]]`, like `"".split` yields `[""]`. -/
def splitOnChar (sep : Char) : List Char → List (List Char)
  | [] => [[]]
  | c :: rest =>
    if c == sep then [] :: splitOnChar sep rest
    else
      match splitOnChar sep rest with
      | l :: ls => (c :: l) :: ls
      | [] => [[c]]

/-- `Array.prototype.join('\n')` over character-list lines. -/
def joinLinesNl : List (List Char) → List Char
  | [] => []
  | [l] => l
  | l :: ls => l ++ '\n' :: joinLinesNl ls

/-- Does the list end in the four characters `.git`? -/
def endsWithDotGit (l : List Char) : Bool :=
  decide (4 ≤ l.length) && (l.drop (l.length - 4) == ".git".data)

/-- The group captured by the regex `([^\/:]+)\.git$`: the maximal run of
characters other than `/` and `:` standing immediately before the final
`.git` (empty when the regex does not match). -/
def sshRepoGroup (l : List Char) : List Char :=
  ((l.take (l.length - 4)).reverse.takeWhile (fun c => !(c == '/' || c == ':'))).reverse

/-- `deriveRepoName` from the CLI source: trim, strip trailing slashes, try
the SSH-style `([^\/:]+)\.git$` match, otherwise take the last `/`-segment
with a trailing `.git` removed, falling back to the literal `"theme"`. -/
def deriveRepoName (repoUrl : String) : String :=
  let name := trimChars repoUrl.data
  let name := dropTrailingIf (· == '/') name
  if endsWithDotGit name && !(sshRepoGroup name).isEmpty then
    String.mk (sshRepoGroup name)
  else
    let parts := splitOnChar '/' name
    let last := parts.getLastD []
    let base := if endsWithDotGit last then last.take (last.length - 4) else last
    if base.isEmpty then "theme" else String.mk base

/-! ## The license gate (`src/utils/auth.js`) -/

/-- `VALID_KEYS` from `utils/auth.js`. -/
def VALID_KEYS : List String :=
  ["OOMI-2025-T@RG3T", "OOMI-2025-TG$YSt3M"]

/-- The ambient inputs of the auth module: the `OOMI_KEY` environment
variable (absent = `none`) and the contents of a readable `.oomi-license`
file in the working directory (absent or unreadable = `none`). -/
structure AuthEnv where
  oomiKeyEnv : Option String
  licenseFile : Option String

/-- `readLicenseFromFile` followed by the `if (fileKey)` guard of
`getLicenseKey`: the trimmed file contents when non-empty. -/
def fileLicenseKey (e : AuthEnv) : Option String :=
  match e.licenseFile with
  | some raw => let k := jsTrimString raw; if k = "" then none else some k
  | none => none

/-- `getLicenseKey` from `utils/auth.js`: the trimmed environment key when
truthy, else the trimmed file key when truthy, else nothing. -/
def getLicenseKey (e : AuthEnv) : Option String :=
  match e.oomiKeyEnv with
  | some v => let k := jsTrimString v; if k = "" then fileLicenseKey e else some k
  | none => fileLicenseKey e

/-- The record returned by `validateLicense`. -/
structure LicenseResult where
  valid : Bool
  key : Option String
  message : Option String
  deriving Repr, DecidableEq

/-- The message used when no key is found. -/
def missingKeyMessage : String :=
  "Missing license key. Set OOMI_KEY env var or provide a .oomi-license file with a valid key."

/-- The message used when the key is a member of `VALID_KEYS`. -/
def deniedMessage : String :=
  "Invalid license key. Access denied."

/-- `validateLicense` from `utils/auth.js`, exactly as coded: a key that IS
in `VALID_KEYS` is rejected, any other non-empty key is accepted. -/
def validateLicense (e : AuthEnv) : LicenseResult :=
  match getLicenseKey e with
  | none => ⟨false, none, some missingKeyMessage⟩
  | some k =>
    if VALID_KEYS.contains k then ⟨false, some k, some deniedMessage⟩
    else ⟨true, some k, none⟩

/-! ## `slugify` -/

/-- Is `c` a lower-case ASCII letter or digit (the class `[a-z0-9]`)? -/
def isLowerAlnum (c : Char) : Bool :=
  (97 ≤ c.toNat && c.toNat ≤ 122) || (48 ≤ c.toNat && c.toNat ≤ 57)

/-- Is `c` a combining diacritical mark (`[̀-ͯ]`)? -/
def isCombiningMark (c : Char) : Bool :=
  0x300 ≤ c.toNat && c.toNat ≤ 0x36F

/-- One character of `String.prototype.normalize('NFKD')`.  Unicode NFKD is
the identity on ASCII; this model carries the decompositions of the
accented characters exercised by the specification (`é`, `É`) and is the
identity elsewhere. -/
def nfkdChar (c : Char) : List Char :=
  if c.toNat == 0xE9 then ['e', '\u0301']
  else if c.toNat == 0xC9 then ['E', '\u0301']
  else [c]

/-- `normalize('NFKD')` over a character list, character-wise. -/
def listNfkd (l : List Char) : List Char :=
  l.foldr (fun c acc => nfkdChar c ++ acc) []

/-- `String.prototype.toLowerCase` restricted to ASCII (the only characters
surviving to that stage that the claims exercise; non-ASCII letters are
collapsed to `-` by the following step either way). -/
def asciiLower (c : Char) : Char :=
  if 65 ≤ c.toNat && c.toNat ≤ 90 then Char.ofNat (c.toNat + 32) else c

/-- Replace every maximal run of characters satisfying `p` by the single
character `r` (the `replace(/X+/g, r)` idiom), keeping other characters. -/
def collapseRuns (p : Char → Bool) (r : Char) : List Char → List Char
  | [] => []
  | [c] => if p c then [r] else [c]
  | c :: d :: rest =>
    if p c && p d then collapseRuns p r (d :: rest)
    else (if p c then r else c) :: collapseRuns p r (d :: rest)

/-- `slugify` from the CLI source: NFKD-normalize, strip diacritics,
lower-case, trim, collapse non-`[a-z0-9]` runs to `-`, strip edge hyphens,
collapse hyphen runs. -/
def slugify (s : String) : String :=
  let l1 := listNfkd s.data
  let l2 := l1.filter (fun c => !isCombiningMark c)
  let l3 := l2.map asciiLower
  let l4 := trimChars l3
  let l5 := collapseRuns (fun c => !isLowerAlnum c) '-' l4
  let l6 := dropTrailingIf (· == '-') (l5.dropWhile (· == '-'))
  let l7 := collapseRuns (fun c => c == '-') '-' l6
  String.mk l7

/-! ## `generateWordPressGitignore` -/

/-- The ignore-file generator from the CLI source, line pushes and the
final `lines.join('\n') + '\n'` rendered at character level: fixed header
lines, one `!wp-content/themes/<n>/**` line per non-blank trimmed theme
name in order, the same for plugins, and a final pushed empty line. -/
def generateWordPressGitignore (themeNames pluginNames : List String) : String :=
  let lines : List (List Char) :=
    ["# WordPress project: ignore everything except selected themes/plugins".data,
     "/*".data,
     "!.gitignore".data,
     "!wp-content/".data,
     [],
     "# In wp-content, ignore all except themes and plugins".data,
     "wp-content/*".data,
     "!wp-content/themes/".data,
     "!wp-content/plugins/".data,
     [],
     "# Ignore all themes except the selected ones".data,
     "wp-content/themes/*".data]
  let lines := themeNames.foldl
    (fun acc name =>
      let n := trimChars name.data
      if n.isEmpty then acc
      else acc ++ [("!wp-content/themes/".data ++ n ++ "/**".data)]) lines
  let lines := lines ++
    [[],
     "# Ignore all plugins except the selected ones".data,
     "wp-content/plugins/*".data]
  let lines := pluginNames.foldl
    (fun acc name =>
      let n := trimChars name.data
      if n.isEmpty then acc
      else acc ++ [("!wp-content/plugins/".data ++ n ++ "/**".data)]) lines
  let lines := lines ++ [[]]
  String.mk (joinLinesNl lines ++ ['\n'])

/-- Modelled from the spec: the expected line list of §4.5 — the exact
fixed header/structure lines, one theme exclusion line per non-blank name
in input order, one plugin exclusion line per non-blank name in input
order (blank names skipped). -/
def specIgnoreLines (themeNames pluginNames : List String) : List (List Char) :=
  ["# WordPress project: ignore everything except selected themes/plugins".data,
   "/*".data,
   "!.gitignore".data,
   "!wp-content/".data,
   [],
   "# In wp-content, ignore all except themes and plugins".data,
   "wp-content/*".data,
   "!wp-content/themes/".data,
   "!wp-content/plugins/".data,
   [],
   "# Ignore all themes except the selected ones".data,
   "wp-content/themes/*".data]
  ++ themeNames.filterMap (fun name =>
       let n := trimChars name.data
       if n.isEmpty then none else some ("!wp-content/themes/".data ++ n ++ "/**".data))
  ++ [[],
      "# Ignore all plugins except the selected ones".data,
      "wp-content/plugins/*".data]
  ++ pluginNames.filterMap (fun name =>
       let n := trimChars name.data
       if n.isEmpty then none else some ("!wp-content/plugins/".data ++ n ++ "/**".data))

/-- Modelled from the spec: the §4.5 structure joined by newlines with a
single trailing newline. -/
def specIgnoreText (themeNames pluginNames : List String) : String :=
  String.mk (joinLinesNl (specIgnoreLines themeNames pluginNames) ++ ['\n'])

/-- Does the text end in exactly one trailing newline — last character a
newline, the character before it (if any) not a newline? -/
def endsWithSingleNewline (s : String) : Bool :=
  match s.data.getLast? with
  | some c =>
    if c == '\n' then
      match s.data.dropLast.getLast? with
      | some d => !(d == '\n')
      | none => true
    else false
  | none => false

/-! ## The `style.css` metadata rewrite (`applyThemeMeta`) -/

/-- Split a character list at the leading run of whitespace:
`(takeWhile, dropWhile)`. -/
def spanWs (cs : List Char) : List Char × List Char :=
  (cs.takeWhile jsWsChar, cs.dropWhile jsWsChar)

/-- The prefix captured by `/^(\s*\*?\s*)/`: leading whitespace, an
optional `*` comment marker, more whitespace.  Returns the captured
prefix and the rest of the line. -/
def headerLinePre (cs : List Char) : List Char × List Char :=
  match cs.dropWhile jsWsChar with
  | '*' :: t => (cs.takeWhile jsWsChar ++ '*' :: t.takeWhile jsWsChar, t.dropWhile jsWsChar)
  | r1 => (cs.takeWhile jsWsChar, r1)

/-- Consume the word `w` case-insensitively (ASCII) from the head of `cs`,
returning the rest on success. -/
def matchWordCI (w : List Char) (cs : List Char) : Option (List Char) :=
  match w, cs with
  | [], rest => some rest
  | _ :: _, [] => none
  | a :: w', c :: cs' => if asciiLower c == a then matchWordCI w' cs' else none

/-- The matcher for `/^(\s*\*?\s*)W1\s*W2\s*:\s*(.*)$/i` (with `W1 W2` e.g.
`Theme Name` or `Text Domain`): returns the captured comment prefix and the
field value. -/
def matchFieldLine (w1 w2 : String) (line : List Char) : Option (List Char × List Char) :=
  let (pre, r0) := headerLinePre line
  match matchWordCI w1.data r0 with
  | none => none
  | some r1 =>
    match matchWordCI w2.data (spanWs r1).2 with
    | none => none
    | some r2 =>
      match (spanWs r2).2 with
      | ':' :: r3 => some (pre, (spanWs r3).2)
      | _ => none

/-- The header terminator test `/^\s*\*\/\s*$/`. -/
def isHeaderEnd (line : List Char) : Bool :=
  match (spanWs line).2 with
  | '*' :: '/' :: r => (spanWs r).2.isEmpty
  | _ => false

/-- The field-replacement loop of `applyThemeMeta`: walk at most `fuel`
(= 200) lines; on the first line matching the field pattern, replace it by
the captured prefix followed by `txt` and stop; stop without replacing at a
header-terminator line. -/
def replaceFieldLoop (w1 w2 txt : String) : Nat → List (List Char) → Option (List (List Char))
  | _, [] => none
  | 0, _ => none
  | fuel + 1, l :: rest =>
    match matchFieldLine w1 w2 l with
    | some (pre, _) => some ((pre ++ txt.data) :: rest)
    | none =>
      if isHeaderEnd l then none
      else
        match replaceFieldLoop w1 w2 txt fuel rest with
        | some rest' => some (l :: rest')
        | none => none

/-- `Array.prototype.findIndex` (absence = `none` instead of `-1`). -/
def jsFindIndex (p : α → Bool) : List α → Option Nat
  | [] => none
  | a :: l => if p a then some 0 else (jsFindIndex p l).map (· + 1)

/-- `Array.prototype.splice(n, 0, a)`: insert `a` before position `n`. -/
def insertAt (a : α) : Nat → List α → List α
  | 0, l => a :: l
  | _ + 1, [] => [a]
  | n + 1, c :: cs => c :: insertAt a n cs

/-- Remove a single trailing carriage return (so that splitting on `'\n'`
then applying this equals splitting on `/\r?\n/`). -/
def stripCR (l : List Char) : List Char :=
  match l.getLast? with
  | some c => if c == '\r' then l.dropLast else l
  | none => l

/-- `raw.split(/\r?\n/)` at character level. -/
def splitCssLines (raw : String) : List (List Char) :=
  (splitOnChar '\n' raw.data).map stripCR

/-- The minimal synthetic header block prepended when no header field was
found: `['/*', 'Theme Name: …', ('Text Domain: …')?, '*/', ''].join('\n')`. -/
def syntheticHeaderText (displayName slug : String) : String :=
  String.mk (joinLinesNl
    (["/*".data, ("Theme Name: " ++ displayName).data]
      ++ (if slug = "" then [] else [("Text Domain: " ++ slug).data])
      ++ ["*/".data, []]))

/-- The pure core of `applyThemeMeta`: given the contents of `style.css`,
the chosen display name and the folder slug, the contents written back.
Mirrors the source: replace the first `Theme Name:` line (within 200 lines,
stopping at a header terminator), replace the first `Text Domain:` line
likewise, insert a `Text Domain:` line right after the `Theme Name:` line
when none was found but the name was replaced, and otherwise prepend the
minimal synthetic header. -/
def applyThemeMetaContent (raw displayName slug : String) : String :=
  let lines := splitCssLines raw
  let nameRes := replaceFieldLoop "theme" "name" ("Theme Name: " ++ displayName) 200 lines
  let lines1 := nameRes.getD lines
  let nameReplaced := nameRes.isSome
  let domRes :=
    if slug = "" then none
    else replaceFieldLoop "text" "domain" ("Text Domain: " ++ slug) 200 lines1
  let lines2 := domRes.getD lines1
  let domainReplaced := domRes.isSome
  let insRes : Option (List (List Char)) :=
    if !(slug = "") && !domainReplaced && nameReplaced then
      match jsFindIndex (fun l => (matchFieldLine "theme" "name" l).isSome) lines2 with
      | some idx =>
        let pre := (headerLinePre (lines2.getD idx [])).1
        some (insertAt (pre ++ ("Text Domain: " ++ slug).data) (idx + 1) lines2)
      | none => none
    else none
  let lines3 := insRes.getD lines2
  let inserted := insRes.isSome
  if nameReplaced || domainReplaced || inserted then String.mk (joinLinesNl lines3)
  else syntheticHeaderText displayName slug ++ raw

/-- The observable outcome of one `applyThemeMeta` call: either `style.css`
was absent (a warning is printed, nothing written), or the file was
rewritten with the given new contents.  The source wraps the whole body in
a catch-and-warn, so there is no failing outcome. -/
inductive MetaOutcome
  | missing
  | wrote (newContent : String)
  deriving Repr, DecidableEq

/-- `applyThemeMeta` at the file-system boundary: `styleCss` is the
contents of `<themeDir>/style.css` when that file exists. -/
def applyThemeMetaRun (styleCss : Option String) (displayName slug : String) : MetaOutcome :=
  match styleCss with
  | none => MetaOutcome.missing
  | some raw => MetaOutcome.wrote (applyThemeMetaContent raw displayName slug)

/-! ## The `create-project` orchestrator

The orchestrated run is modelled as a deterministic interpreter over an
environment that fixes the outcome of every external effect (network calls,
archive handling, `git clone`, file writes) and the pre-existing state of
the file system.  Directory-creation primitives (`mkdir` of the project
directory, of `extracted/`, of `wp-content/{themes,plugins}`) are modelled
as succeeding; a failure there behaves like any other in-`try` failure.
The removal primitives of the cleanup paths (`fsp.rm` with `force`) are
modelled as succeeding, matching the best-effort intent. -/

/-- One resolved theme selection: source URL, folder slug, display name
(`""` when no display name was supplied). -/
structure ThemeSel where
  url : String
  name : String
  displayName : String
  deriving Repr, DecidableEq

/-- The resolved `create-project` request (the prompting layer's output). -/
structure Request where
  themes : List ThemeSel
  plugins : List String
  includeGitignore : Bool
  deriving Repr, DecidableEq

/-- The environment resolving every external outcome of one run.
`release` is `none` when the metadata request throws, and `some z` when it
returns a response whose `zipball_url` field is `z`. -/
structure Env where
  destExists : Bool
  mkdtempOk : Bool
  release : Option (Option String)
  downloadOk : Bool
  extractOk : Bool
  hasTopDir : Bool
  copyOk : Bool
  themeDestExists : String → Bool
  themeCloneOk : String → Bool
  themeStyleCss : String → Option String
  pluginDestExists : String → Bool
  pluginCloneOk : String → Bool
  writeOk : Bool

/-- The observable file-system state touched by one run. -/
structure FsState where
  projectDir : Bool
  tmp : Bool
  themeDirs : List String
  pluginDirs : List String
  gitignore : Bool
  deriving Repr, DecidableEq

/-- The file-system state before the run: nothing created. -/
def FsState.init : FsState := ⟨false, false, [], [], false⟩

/-- Log events of one run (warnings, clones, downloads, writes). -/
inductive Ev
  | warnReleaseFallback
  | downloaded (url : String)
  | warnSkipTheme (name : String)
  | clonedTheme (name : String)
  | metaWrote (name : String)
  | metaMissing (name : String)
  | warnSkipPlugin (name : String)
  | clonedPlugin (name : String)
  | wroteGitignore
  deriving Repr, DecidableEq

/-- The final result of one `create-project` invocation. -/
inductive RunResult
  | destExistsError
  | completed
  | failed (msg : String)
  deriving Repr, DecidableEq

/-- The fixed fallback archive URL. -/
def fallbackZipUrl : String :=
  "https://api.github.com/repos/WordPress/WordPress/zipball"

/-- `const zipUrl = (release && release.zipball_url) ? release.zipball_url
: fallback` — the fallback is used when the metadata request threw, when
the response has no `zipball_url`, and when that field is empty (falsy). -/
def zipUrl (env : Env) : String :=
  match env.release with
  | some (some u) => if u = "" then fallbackZipUrl else u
  | _ => fallbackZipUrl

/-- The meta-rewrite events of one theme entry: nothing when no display
name was supplied, otherwise the outcome of `applyThemeMeta` against the
entry's `style.css`. -/
def metaEvs (env : Env) (t : ThemeSel) : List Ev :=
  if t.displayName = "" then []
  else
    match applyThemeMetaRun (env.themeStyleCss t.name) t.displayName t.name with
    | MetaOutcome.missing => [Ev.metaMissing t.name]
    | MetaOutcome.wrote _ => [Ev.metaWrote t.name]

/-- The theme-clone loop: skip (with warning, still attempting the
metadata rewrite) when the destination exists, clone otherwise, abort the
run on a clone failure. -/
def runThemes (env : Env) : List ThemeSel → FsState → List Ev →
    Except String Unit × FsState × List Ev
  | [], st, log => (Except.ok (), st, log)
  | t :: rest, st, log =>
    if env.themeDestExists t.name || st.themeDirs.contains t.name then
      runThemes env rest st (log ++ [Ev.warnSkipTheme t.name] ++ metaEvs env t)
    else if env.themeCloneOk t.url then
      runThemes env rest { st with themeDirs := st.themeDirs ++ [t.name] }
        (log ++ [Ev.clonedTheme t.name] ++ metaEvs env t)
    else
      (Except.error ("git clone failed: " ++ t.url), st, log)

/-- The plugin-clone loop: folder name derived from the URL; skip with a
warning when the destination exists; abort the run on a clone failure. -/
def runPlugins (env : Env) : List String → FsState → List Ev →
    Except String Unit × FsState × List Ev
  | [], st, log => (Except.ok (), st, log)
  | url :: rest, st, log =>
    let name := deriveRepoName url
    if env.pluginDestExists name || st.pluginDirs.contains name then
      runPlugins env rest st (log ++ [Ev.warnSkipPlugin name])
    else if env.pluginCloneOk url then
      runPlugins env rest { st with pluginDirs := st.pluginDirs ++ [name] }
        (log ++ [Ev.clonedPlugin name])
    else
      (Except.error ("git clone failed: " ++ url), st, log)

/-- The warning produced by the release-metadata fetch: present exactly
when the request threw. -/
def releaseLog (env : Env) : List Ev :=
  match env.release with
  | none => [Ev.warnReleaseFallback]
  | some _ => []

/-- The tail of the `try` block after the archive content is in place:
clone themes, clone plugins, write the ignore file when requested. -/
def runInstallAndWrite (env : Env) (req : Request) (st : FsState) (log : List Ev) :
    Except String Unit × FsState × List Ev :=
  match runThemes env req.themes st log with
  | (Except.error e, st, log) => (Except.error e, st, log)
  | (Except.ok _, st, log) =>
    match runPlugins env req.plugins st log with
    | (Except.error e, st, log) => (Except.error e, st, log)
    | (Except.ok _, st, log) =>
      if req.includeGitignore then
        if env.writeOk then
          (Except.ok (), { st with gitignore := true }, log ++ [Ev.wroteGitignore])
        else (Except.error "write .gitignore failed", st, log)
      else (Except.ok (), st, log)

/-- The body of the `try` block: create the project directory and the temp
workspace, fetch release metadata (non-fatally), download, extract, check
the top-level directory, copy, then `runInstallAndWrite`. -/
def runSteps (env : Env) (req : Request) : Except String Unit × FsState × List Ev :=
  if !env.mkdtempOk then (Except.error "mkdtemp failed", ⟨true, false, [], [], false⟩, [])
  else
    let st : FsState := ⟨true, true, [], [], false⟩
    let log : List Ev := releaseLog env
    if !env.downloadOk then (Except.error "download failed", st, log)
    else
      let log := log ++ [Ev.downloaded (zipUrl env)]
      if !env.extractOk then (Except.error "extract failed", st, log)
      else if !env.hasTopDir then
        (Except.error "Unexpected archive structure: no top-level directory found inside the ZIP.", st, log)
      else if !env.copyOk then (Except.error "copy failed", st, log)
      else runInstallAndWrite env req st log

/-- One `create-project` invocation: the pre-existence guard (`existsSync`
then `process.exit(1)` before any mutation), then the `try` body; the
`catch` removes the project directory recursively, the `finally` removes
the temp workspace. -/
def runCreateProject (env : Env) (req : Request) : RunResult × FsState × List Ev :=
  if env.destExists then (RunResult.destExistsError, FsState.init, [])
  else
    match runSteps env req with
    | (Except.ok _, st, log) => (RunResult.completed, { st with tmp := false }, log)
    | (Except.error e, _, log) => (RunResult.failed e, ⟨false, false, [], [], false⟩, log)

/-- No two adjacent characters of the list satisfy `p`. -/
def noAdjPair (p : Char → Bool) : List Char → Bool
  | [] => true
  | [_] => true
  | c :: d :: rest => !(p c && p d) && noAdjPair p (d :: rest)

/-- A canonical slug: only `[a-z0-9-]` characters, no adjacent
non-alphanumerics (hence no `--`), and no leading or trailing hyphen.
`slugify` produces exactly such character lists and is the identity on
them. -/
def isCanonSlug (l : List Char) : Bool :=
  l.all (fun c => isLowerAlnum c || c == '-') &&
  noAdjPair (fun c => !isLowerAlnum c) l &&
  (match l.head? with
   | some c => !(c == '-')
   | none => true) &&
  (match l.getLast? with
   | some c => !(c == '-')
   | none => true)

/-! ## Claim C8 — `deriveRepoName` test values -/

/-- C8: `deriveRepoName` is total and deterministic (it is a Lean
function) and takes the specified values: `repo` for the SSH form, the
HTTPS form, and the HTTPS form with a trailing slash, and the literal
fallback `theme` on the empty string. -/
theorem deriveRepoName_spec_values :
    deriveRepoName "git@host:org/repo.git" = "repo" ∧
    deriveRepoName "https://host/org/repo" = "repo" ∧
    deriveRepoName "https://host/org/repo/" = "repo" ∧
    deriveRepoName "" = "theme" := by
  refine ⟨?_, ?_, ?_, ?_⟩ <;> decide

/-! ## Claim C2 — the inverted allow-list of `validateLicense` -/

/-- `getLicenseKey` never returns the empty string. -/
theorem getLicenseKey_ne_empty (e : AuthEnv) (k : String)
    (h : getLicenseKey e = some k) : k ≠ "" := by
  unfold getLicenseKey fileLicenseKey at h
  rcases e with ⟨env, file⟩
  intro hk
  subst hk
  cases env <;> cases file <;> dsimp at h <;>
    first
      | exact Option.noConfusion h
      | (split_ifs at h <;> simp_all)

/-- C2: `validateLicense` accepts exactly the keys NOT in `VALID_KEYS`:
every non-empty key found by `getLicenseKey` that is a member of
`VALID_KEYS` yields `valid := false` with the access-denied message, every
key not in the list yields `valid := true`, and a missing key yields
`valid := false` with the missing-key message. -/
theorem validateLicense_inverted_allowlist (e : AuthEnv) :
    (∀ k, getLicenseKey e = some k →
      k ≠ "" ∧
      (k ∈ VALID_KEYS →
        validateLicense e = ⟨false, some k, some deniedMessage⟩) ∧
      (k ∉ VALID_KEYS →
        validateLicense e = ⟨true, some k, none⟩)) ∧
    (getLicenseKey e = none →
      validateLicense e = ⟨false, none, some missingKeyMessage⟩) := by
  constructor
  · intro k hk
    refine ⟨getLicenseKey_ne_empty e k hk, ?_, ?_⟩
    · intro hmem
      simp [validateLicense, hk, List.contains, List.elem_iff, hmem]
    · intro hmem
      simp [validateLicense, hk, List.contains, List.elem_iff, hmem]
  · intro hnone
    simp [validateLicense, hnone]

/-- Witness for C2: the first member of `VALID_KEYS`, supplied through the
environment variable, is rejected with the access-denied message. -/
theorem validateLicense_inverted_allowlist_witness :
    validateLicense ⟨some "OOMI-2025-T@RG3T", none⟩ =
      ⟨false, some "OOMI-2025-T@RG3T", some deniedMessage⟩ :=
  ((validateLicense_inverted_allowlist ⟨some "OOMI-2025-T@RG3T", none⟩).1
    "OOMI-2025-T@RG3T" (by decide)).2.1 (by decide)

/-! ## Claim C3 — pre-existing destination is a pure precondition failure -/

/-- C3: when the resolved destination already exists at invocation start,
the run stops with the destination-exists error, the file system is left
exactly in its initial state (nothing created, nothing written), and no
step of the pipeline runs (the log is empty). -/
theorem preexisting_destination_pure_failure (env : Env) (req : Request)
    (h : env.destExists = true) :
    runCreateProject env req = (RunResult.destExistsError, FsState.init, []) := by
  simp [runCreateProject, h]

/-- Witness for C3 at a concrete environment and request. -/
theorem preexisting_destination_pure_failure_witness :
    runCreateProject
      { destExists := true, mkdtempOk := true, release := none,
        downloadOk := true, extractOk := true, hasTopDir := true,
        copyOk := true, themeDestExists := fun _ => false,
        themeCloneOk := fun _ => true, themeStyleCss := fun _ => none,
        pluginDestExists := fun _ => false, pluginCloneOk := fun _ => true,
        writeOk := true }
      { themes := [⟨"https://host/org/repo", "repo", "Repo"⟩],
        plugins := [], includeGitignore := true } =
      (RunResult.destExistsError, FsState.init, []) :=
  preexisting_destination_pure_failure _ _ rfl

/-! ## Claim C1 — all-or-nothing rollback -/

/-- The theme-clone loop leaves the project-directory and temp-workspace
flags untouched. -/
theorem runThemes_fs (env : Env) (l : List ThemeSel) (st : FsState) (log : List Ev) :
    (runThemes env l st log).2.1.projectDir = st.projectDir ∧
    (runThemes env l st log).2.1.tmp = st.tmp := by
  induction l generalizing st log with
  | nil => simp [runThemes]
  | cons t rest ih =>
    simp only [runThemes]
    split
    · exact ih ..
    · split
      · exact ih ..
      · simp

/-- The plugin-clone loop leaves the project-directory and temp-workspace
flags untouched. -/
theorem runPlugins_fs (env : Env) (l : List String) (st : FsState) (log : List Ev) :
    (runPlugins env l st log).2.1.projectDir = st.projectDir ∧
    (runPlugins env l st log).2.1.tmp = st.tmp := by
  induction l generalizing st log with
  | nil => simp [runPlugins]
  | cons u rest ih =>
    simp only [runPlugins]
    split
    · exact ih ..
    · split
      · exact ih ..
      · simp

/-- `runInstallAndWrite` leaves the project-directory and temp-workspace
flags untouched on every branch. -/
theorem runInstallAndWrite_fs (env : Env) (req : Request) (st : FsState) (log : List Ev) :
    (runInstallAndWrite env req st log).2.1.projectDir = st.projectDir ∧
    (runInstallAndWrite env req st log).2.1.tmp = st.tmp := by
  unfold runInstallAndWrite
  rcases hT : runThemes env req.themes st log with ⟨rT, stT, logT⟩
  have hfsT := runThemes_fs env req.themes st log
  rw [hT] at hfsT
  cases rT with
  | error e => simpa using hfsT
  | ok u =>
    dsimp only
    simp only at hfsT
    rcases hP : runPlugins env req.plugins stT logT with ⟨rP, stP, logP⟩
    have hfsP := runPlugins_fs env req.plugins stT logT
    rw [hP] at hfsP
    cases rP with
    | error e => simp_all
    | ok u =>
      dsimp only
      simp only at hfsP
      split
      · split <;> simp_all
      · simp_all

/-- When the `try` body completes, both the project directory and the temp
workspace exist. -/
theorem runSteps_ok_fs (env : Env) (req : Request)
    (h : (runSteps env req).1 = Except.ok ()) :
    (runSteps env req).2.1.projectDir = true ∧ (runSteps env req).2.1.tmp = true := by
  unfold runSteps at h ⊢
  by_cases hm : env.mkdtempOk = true
  · by_cases hd : env.downloadOk = true
    · by_cases he : env.extractOk = true
      · by_cases ht : env.hasTopDir = true
        · by_cases hc : env.copyOk = true
          · simp only [hm, hd, he, ht, hc]
            simpa using runInstallAndWrite_fs env req ⟨true, true, [], [], false⟩
              (releaseLog env ++ [Ev.downloaded (zipUrl env)])
          · simp [hm, hd, he, ht, hc] at h
        · simp [hm, hd, he, ht] at h
      · simp [hm, hd, he] at h
    · simp [hm, hd] at h
  · simp [hm] at h

/-- C1: all-or-nothing rollback.  For every run whose destination did not
pre-exist (so the project directory is created), if the run completes then
afterwards the project directory exists and the temp workspace does not,
and if the run fails at any step (mkdtemp, download, extraction,
top-level-directory check, copy, theme or plugin clone, ignore-file write)
then afterwards neither the project directory nor the temp workspace
exists. -/
theorem create_project_all_or_nothing (env : Env) (req : Request)
    (h : env.destExists = false) :
    ((runCreateProject env req).1 = RunResult.completed →
      (runCreateProject env req).2.1.projectDir = true ∧
      (runCreateProject env req).2.1.tmp = false) ∧
    (∀ e, (runCreateProject env req).1 = RunResult.failed e →
      (runCreateProject env req).2.1.projectDir = false ∧
      (runCreateProject env req).2.1.tmp = false) := by
  unfold runCreateProject
  simp only [h, Bool.false_eq_true, if_false]
  rcases hs : runSteps env req with ⟨r, st, log⟩
  have hfs := runSteps_ok_fs env req
  rw [hs] at hfs
  cases r with
  | ok u =>
    simp only at hfs
    constructor
    · intro
      exact ⟨(hfs trivial).1, rfl⟩
    · intro e he
      exact absurd he (by simp)
  | error e => simp

/-- Witness for C1 at a concrete failing environment (download fails): the
run reports failure and both directories are gone. -/
theorem create_project_all_or_nothing_witness :
    ((runCreateProject
        { destExists := false, mkdtempOk := true, release := some (some "https://z"),
          downloadOk := false, extractOk := true, hasTopDir := true,
          copyOk := true, themeDestExists := fun _ => false,
          themeCloneOk := fun _ => true, themeStyleCss := fun _ => none,
          pluginDestExists := fun _ => false, pluginCloneOk := fun _ => true,
          writeOk := true }
        { themes := [], plugins := [], includeGitignore := true }).1 =
          RunResult.completed →
      (runCreateProject
        { destExists := false, mkdtempOk := true, release := some (some "https://z"),
          downloadOk := false, extractOk := true, hasTopDir := true,
          copyOk := true, themeDestExists := fun _ => false,
          themeCloneOk := fun _ => true, themeStyleCss := fun _ => none,
          pluginDestExists := fun _ => false, pluginCloneOk := fun _ => true,
          writeOk := true }
        { themes := [], plugins := [], includeGitignore := true }).2.1.projectDir = true ∧
      (runCreateProject
        { destExists := false, mkdtempOk := true, release := some (some "https://z"),
          downloadOk := false, extractOk := true, hasTopDir := true,
          copyOk := true, themeDestExists := fun _ => false,
          themeCloneOk := fun _ => true, themeStyleCss := fun _ => none,
          pluginDestExists := fun _ => false, pluginCloneOk := fun _ => true,
          writeOk := true }
        { themes := [], plugins := [], includeGitignore := true }).2.1.tmp = false) ∧
    (∀ e, (runCreateProject
        { destExists := false, mkdtempOk := true, release := some (some "https://z"),
          downloadOk := false, extractOk := true, hasTopDir := true,
          copyOk := true, themeDestExists := fun _ => false,
          themeCloneOk := fun _ => true, themeStyleCss := fun _ => none,
          pluginDestExists := fun _ => false, pluginCloneOk := fun _ => true,
          writeOk := true }
        { themes := [], plugins := [], includeGitignore := true }).1 =
          RunResult.failed e →
      (runCreateProject
        { destExists := false, mkdtempOk := true, release := some (some "https://z"),
          downloadOk := false, extractOk := true, hasTopDir := true,
          copyOk := true, themeDestExists := fun _ => false,
          themeCloneOk := fun _ => true, themeStyleCss := fun _ => none,
          pluginDestExists := fun _ => false, pluginCloneOk := fun _ => true,
          writeOk := true }
        { themes := [], plugins := [], includeGitignore := true }).2.1.projectDir = false ∧
      (runCreateProject
        { destExists := false, mkdtempOk := true, release := some (some "https://z"),
          downloadOk := false, extractOk := true, hasTopDir := true,
          copyOk := true, themeDestExists := fun _ => false,
          themeCloneOk := fun _ => true, themeStyleCss := fun _ => none,
          pluginDestExists := fun _ => false, pluginCloneOk := fun _ => true,
          writeOk := true }
        { themes := [], plugins := [], includeGitignore := true }).2.1.tmp = false) :=
  create_project_all_or_nothing _ _ rfl

/-! ## Claim C4 — the ignore-file generator -/

/-- A push-style fold (the `for … lines.push(…)` loop with a skip) equals
appending the corresponding `filterMap`. -/
theorem foldl_if_push (p : String → Bool) (g : String → List Char) :
    ∀ (l : List String) (acc : List (List Char)),
      l.foldl (fun a name => if p name then a else a ++ [g name]) acc
        = acc ++ l.filterMap (fun name => if p name then none else some (g name)) := by
  intro l
  induction l with
  | nil => simp
  | cons a l ih =>
    intro acc
    by_cases h : p a
    · simp [h, ih]
    · simp [h, ih]

/-- Joining after a final pushed empty line appends one newline. -/
theorem joinLinesNl_append_empty :
    ∀ (a : List Char) (L : List (List Char)),
      joinLinesNl ((a :: L) ++ [[]]) = joinLinesNl (a :: L) ++ ['\n'] := by
  intro a L
  induction L generalizing a with
  | nil => simp [joinLinesNl]
  | cons b L' ih =>
    have h1 : joinLinesNl ((a :: b :: L') ++ [[]]) =
        a ++ '\n' :: joinLinesNl ((b :: L') ++ [[]]) := rfl
    have h2 : joinLinesNl (a :: b :: L') = a ++ '\n' :: joinLinesNl (b :: L') := rfl
    rw [h1, h2, ih b]
    simp

/-- `String.mk` commutes with append. -/
theorem strMkAppend (x y : List Char) : String.mk x ++ String.mk y = String.mk (x ++ y) := rfl

/-- C4 (amended): the generated ignore file is byte-for-byte the spec's
structure lines — fixed header lines, one theme exclusion line per
non-blank name in input order, one plugin exclusion line per non-blank
name in input order — joined by newlines, followed by a trailing *empty*
line: the spec text plus one more newline, so the output ends with a
newline but not with a *single* one.  Determinism is immediate
(`generateWordPressGitignore` is a pure function). -/
theorem gitignore_structure_exact (themeNames pluginNames : List String) :
    generateWordPressGitignore themeNames pluginNames
      = specIgnoreText themeNames pluginNames ++ "\n" ∧
    (generateWordPressGitignore themeNames pluginNames).data.getLast? = some '\n' := by
  have hlines :
      generateWordPressGitignore themeNames pluginNames
        = String.mk (joinLinesNl (specIgnoreLines themeNames pluginNames ++ [[]]) ++ ['\n']) := by
    unfold generateWordPressGitignore specIgnoreLines
    dsimp only
    rw [foldl_if_push (fun name => (trimChars name.data).isEmpty)
          (fun name => "!wp-content/themes/".data ++ trimChars name.data ++ "/**".data),
        foldl_if_push (fun name => (trimChars name.data).isEmpty)
          (fun name => "!wp-content/plugins/".data ++ trimChars name.data ++ "/**".data)]
  have hform :
      joinLinesNl (specIgnoreLines themeNames pluginNames ++ [[]])
        = joinLinesNl (specIgnoreLines themeNames pluginNames) ++ ['\n'] := by
    have : specIgnoreLines themeNames pluginNames
        = "# WordPress project: ignore everything except selected themes/plugins".data
          :: (specIgnoreLines themeNames pluginNames).tail := rfl
    rw [this]
    exact joinLinesNl_append_empty _ _
  constructor
  · rw [hlines, hform]
    unfold specIgnoreText
    rw [show ("\n" : String) = String.mk ['\n'] from rfl, strMkAppend]
  · rw [hlines]
    simp

set_option maxRecDepth 8192 in
/-- Counterexample for C4 as stated: the output does not end with a single
trailing newline — the final structure line is followed by an empty line,
so the text ends in two newline characters (`specIgnoreText`, the
spec-modelled text with a single trailing newline, plus one more). -/
theorem gitignore_not_single_newline_counterexample :
    endsWithSingleNewline (generateWordPressGitignore [] []) = false ∧
    generateWordPressGitignore [] [] = specIgnoreText [] [] ++ "\n" := by
  constructor
  · decide
  · decide

/-! ## Log and environment lemmas for the clone loops -/

/-- The theme loop's result and final state do not depend on the incoming
log; the log grows by a run-determined suffix. -/
theorem runThemes_log (env : Env) (l : List ThemeSel) :
    ∀ (st : FsState) (log : List Ev),
      runThemes env l st log
        = ((runThemes env l st []).1, (runThemes env l st []).2.1,
            log ++ (runThemes env l st []).2.2) := by
  induction l with
  | nil => intro st log; simp [runThemes]
  | cons t rest ih =>
    intro st log
    simp only [runThemes]
    split
    · rw [ih st (log ++ [Ev.warnSkipTheme t.name] ++ metaEvs env t),
          ih st ([] ++ [Ev.warnSkipTheme t.name] ++ metaEvs env t)]
      simp
    · split
      · rw [ih { st with themeDirs := st.themeDirs ++ [t.name] }
              (log ++ [Ev.clonedTheme t.name] ++ metaEvs env t),
            ih { st with themeDirs := st.themeDirs ++ [t.name] }
              ([] ++ [Ev.clonedTheme t.name] ++ metaEvs env t)]
        simp
      · simp

/-- The plugin loop's result and final state do not depend on the incoming
log; the log grows by a run-determined suffix. -/
theorem runPlugins_log (env : Env) (l : List String) :
    ∀ (st : FsState) (log : List Ev),
      runPlugins env l st log
        = ((runPlugins env l st []).1, (runPlugins env l st []).2.1,
            log ++ (runPlugins env l st []).2.2) := by
  induction l with
  | nil => intro st log; simp [runPlugins]
  | cons u rest ih =>
    intro st log
    simp only [runPlugins]
    split
    · rw [ih st (log ++ [Ev.warnSkipPlugin (deriveRepoName u)]),
          ih st ([] ++ [Ev.warnSkipPlugin (deriveRepoName u)])]
      simp
    · split
      · rw [ih { st with pluginDirs := st.pluginDirs ++ [deriveRepoName u] }
              (log ++ [Ev.clonedPlugin (deriveRepoName u)]),
            ih { st with pluginDirs := st.pluginDirs ++ [deriveRepoName u] }
              ([] ++ [Ev.clonedPlugin (deriveRepoName u)])]
        simp
      · simp

/-- The install-and-write phase's result and final state do not depend on
the incoming log; the log grows by a run-determined suffix. -/
theorem runInstallAndWrite_log (env : Env) (req : Request) (st : FsState) (log : List Ev) :
    runInstallAndWrite env req st log
      = ((runInstallAndWrite env req st []).1, (runInstallAndWrite env req st []).2.1,
          log ++ (runInstallAndWrite env req st []).2.2) := by
  unfold runInstallAndWrite
  rw [runThemes_log env req.themes st log, runThemes_log env req.themes st []]
  rcases hT : runThemes env req.themes st [] with ⟨rT, stT, logT⟩
  cases rT with
  | error e => simp
  | ok u =>
    dsimp only
    rw [runPlugins_log env req.plugins stT (log ++ ([] ++ logT)),
        runPlugins_log env req.plugins stT ([] ++ logT)]
    rcases hP : runPlugins env req.plugins stT [] with ⟨rP, stP, logP⟩
    cases rP with
    | error e => simp
    | ok u =>
      dsimp only
      split
      · split <;> simp
      · simp

/-- Log membership is preserved through the install-and-write phase. -/
theorem runInstallAndWrite_log_mono (env : Env) (req : Request) (st : FsState)
    (log : List Ev) (e : Ev) (he : e ∈ log) :
    e ∈ (runInstallAndWrite env req st log).2.2 := by
  rw [runInstallAndWrite_log]
  exact List.mem_append_left _ he

/-- The theme loop reads only the theme-related fields of the
environment. -/
theorem runThemes_congr (env1 env2 : Env)
    (h1 : env1.themeDestExists = env2.themeDestExists)
    (h2 : env1.themeCloneOk = env2.themeCloneOk)
    (h3 : env1.themeStyleCss = env2.themeStyleCss) :
    ∀ (l : List ThemeSel) (st : FsState) (log : List Ev),
      runThemes env1 l st log = runThemes env2 l st log := by
  intro l
  induction l with
  | nil => intro st log; simp [runThemes]
  | cons t rest ih =>
    intro st log
    simp only [runThemes, metaEvs, h1, h2, h3, ih]

/-- The plugin loop reads only the plugin-related fields of the
environment. -/
theorem runPlugins_congr (env1 env2 : Env)
    (h1 : env1.pluginDestExists = env2.pluginDestExists)
    (h2 : env1.pluginCloneOk = env2.pluginCloneOk) :
    ∀ (l : List String) (st : FsState) (log : List Ev),
      runPlugins env1 l st log = runPlugins env2 l st log := by
  intro l
  induction l with
  | nil => intro st log; simp [runPlugins]
  | cons u rest ih =>
    intro st log
    simp only [runPlugins, h1, h2, ih]

/-- The install-and-write phase reads only the clone-related fields and
the write flag of the environment. -/
theorem runInstallAndWrite_congr (env1 env2 : Env) (req : Request)
    (h1 : env1.themeDestExists = env2.themeDestExists)
    (h2 : env1.themeCloneOk = env2.themeCloneOk)
    (h3 : env1.themeStyleCss = env2.themeStyleCss)
    (h4 : env1.pluginDestExists = env2.pluginDestExists)
    (h5 : env1.pluginCloneOk = env2.pluginCloneOk)
    (hw : env1.writeOk = env2.writeOk) :
    ∀ (st : FsState) (log : List Ev),
      runInstallAndWrite env1 req st log = runInstallAndWrite env2 req st log := by
  intro st log
  unfold runInstallAndWrite
  simp only [runThemes_congr env1 env2 h1 h2 h3, runPlugins_congr env1 env2 h4 h5, hw]

/-! ## Claim C7 — release-metadata failure is degradation -/

/-- The run result and the final file-system state do not depend on the
release-metadata outcome. -/
theorem runSteps_release_indep (env : Env) (req : Request)
    (z₁ z₂ : Option (Option String)) :
    (runSteps { env with release := z₁ } req).1 = (runSteps { env with release := z₂ } req).1 ∧
    (runSteps { env with release := z₁ } req).2.1 = (runSteps { env with release := z₂ } req).2.1 := by
  rcases env with ⟨d, m, rel, dl, ex, td, cp, tde, tco, tsc, pde, pco, w⟩
  unfold runSteps
  dsimp only
  by_cases hm : m = true
  · subst hm
    by_cases hd : dl = true
    · subst hd
      by_cases he : ex = true
      · subst he
        by_cases ht : td = true
        · subst ht
          by_cases hc : cp = true
          · subst hc
            have hcg := runInstallAndWrite_congr
              (Env.mk d true z₁ true true true true tde tco tsc pde pco w)
              (Env.mk d true z₂ true true true true tde tco tsc pde pco w)
              req rfl rfl rfl rfl rfl rfl
            simp only [Bool.not_true, Bool.false_eq_true, if_false]
            refine ⟨?_, ?_⟩ <;>
              (rw [hcg]
               conv_lhs => rw [runInstallAndWrite_log]
               conv_rhs => rw [runInstallAndWrite_log]
               try simp)
          · simp [hc]
        · simp [ht]
      · simp [he]
    · simp [hd]
  · simp [hm]

/-- C7 (amended): when the release-metadata fetch throws, a warning is
logged and the fixed fallback URL is downloaded; when the fetch succeeds
without a usable archive URL, the fallback URL is downloaded (without any
warning); and in every case the metadata outcome has no effect on the run
result or the final file-system state. -/
theorem release_metadata_degradation (env : Env) (req : Request)
    (hdest : env.destExists = false) (hmk : env.mkdtempOk = true) :
    (env.release = none →
      Ev.warnReleaseFallback ∈ (runCreateProject env req).2.2 ∧
      zipUrl env = fallbackZipUrl) ∧
    ((env.release = some none ∨ env.release = some (some "")) →
      zipUrl env = fallbackZipUrl) ∧
    (∀ z₁ z₂ : Option (Option String),
      (runCreateProject { env with release := z₁ } req).1
        = (runCreateProject { env with release := z₂ } req).1 ∧
      (runCreateProject { env with release := z₁ } req).2.1
        = (runCreateProject { env with release := z₂ } req).2.1) := by
  have hlift : ∀ e, e ∈ (runSteps env req).2.2 → e ∈ (runCreateProject env req).2.2 := by
    intro e he
    unfold runCreateProject
    simp only [hdest, Bool.false_eq_true, if_false]
    rcases hs : runSteps env req with ⟨r, st, log⟩
    rw [hs] at he
    simp only at he
    cases r <;> simpa using he
  refine ⟨?_, ?_, ?_⟩
  · intro hr
    have hrel : releaseLog env = [Ev.warnReleaseFallback] := by simp [releaseLog, hr]
    refine ⟨hlift _ ?_, by simp [zipUrl, hr]⟩
    unfold runSteps
    simp only [hmk, Bool.not_true, Bool.false_eq_true, if_false]
    by_cases hd : env.downloadOk = true
    · by_cases he : env.extractOk = true
      · by_cases ht : env.hasTopDir = true
        · by_cases hc : env.copyOk = true
          · simp only [hd, he, ht, hc, Bool.not_true, Bool.false_eq_true, if_false]
            exact runInstallAndWrite_log_mono env req _ _ _
              (by simp [hrel])
          · simp [hd, he, ht, hc, hrel]
        · simp [hd, he, ht, hrel]
      · simp [hd, he, hrel]
    · simp [hd, hrel]
  · rintro (hr | hr) <;> simp [zipUrl, hr]
  · intro z₁ z₂
    have hind := runSteps_release_indep env req z₁ z₂
    unfold runCreateProject
    have hd1 : ({ env with release := z₁ } : Env).destExists = false := hdest
    have hd2 : ({ env with release := z₂ } : Env).destExists = false := hdest
    simp only [hd1, hd2, Bool.false_eq_true, if_false]
    rcases h1 : runSteps { env with release := z₁ } req with ⟨r1, st1, log1⟩
    rcases h2 : runSteps { env with release := z₂ } req with ⟨r2, st2, log2⟩
    rw [h1, h2] at hind
    simp only at hind
    obtain ⟨hr12, hst12⟩ := hind
    subst hr12
    subst hst12
    cases r1 <;> simp [hdest]

/-- Witness for C7 (amended) at a concrete environment whose metadata
fetch throws: the fallback warning appears in the log and the fallback URL
is used. -/
theorem release_metadata_degradation_witness :
    Ev.warnReleaseFallback ∈
      (runCreateProject
        { destExists := false, mkdtempOk := true, release := none,
          downloadOk := true, extractOk := true, hasTopDir := true,
          copyOk := true, themeDestExists := fun _ => false,
          themeCloneOk := fun _ => true, themeStyleCss := fun _ => none,
          pluginDestExists := fun _ => false, pluginCloneOk := fun _ => true,
          writeOk := true }
        { themes := [], plugins := [], includeGitignore := true }).2.2 ∧
    zipUrl
      { destExists := false, mkdtempOk := true, release := none,
        downloadOk := true, extractOk := true, hasTopDir := true,
        copyOk := true, themeDestExists := fun _ => false,
        themeCloneOk := fun _ => true, themeStyleCss := fun _ => none,
        pluginDestExists := fun _ => false, pluginCloneOk := fun _ => true,
        writeOk := true } = fallbackZipUrl :=
  (release_metadata_degradation _ _ rfl rfl).1 rfl

/-- Counterexample for C7 as stated: a run whose metadata fetch succeeds
but returns no archive URL uses the fallback URL and completes, yet no
warning is logged — contradicting "a warning is logged" for the
returns-no-archive-URL case. -/
theorem release_no_url_no_warning_counterexample :
    zipUrl
      { destExists := false, mkdtempOk := true, release := some none,
        downloadOk := true, extractOk := true, hasTopDir := true,
        copyOk := true, themeDestExists := fun _ => false,
        themeCloneOk := fun _ => true, themeStyleCss := fun _ => none,
        pluginDestExists := fun _ => false, pluginCloneOk := fun _ => true,
        writeOk := true } = fallbackZipUrl ∧
    (runCreateProject
      { destExists := false, mkdtempOk := true, release := some none,
        downloadOk := true, extractOk := true, hasTopDir := true,
        copyOk := true, themeDestExists := fun _ => false,
        themeCloneOk := fun _ => true, themeStyleCss := fun _ => none,
        pluginDestExists := fun _ => false, pluginCloneOk := fun _ => true,
        writeOk := true }
      { themes := [], plugins := [], includeGitignore := true }).1 = RunResult.completed ∧
    Ev.warnReleaseFallback ∉
      (runCreateProject
        { destExists := false, mkdtempOk := true, release := some none,
          downloadOk := true, extractOk := true, hasTopDir := true,
          copyOk := true, themeDestExists := fun _ => false,
          themeCloneOk := fun _ => true, themeStyleCss := fun _ => none,
          pluginDestExists := fun _ => false, pluginCloneOk := fun _ => true,
          writeOk := true }
        { themes := [], plugins := [], includeGitignore := true }).2.2 := by
  refine ⟨by decide, by decide, by decide⟩

/-! ## Claim C5 — per-entry skip-with-warning is never fatal -/

/-- The meta-rewrite step never emits a clone event. -/
theorem metaEvs_no_cloned (env : Env) (t : ThemeSel) (n : String) :
    Ev.clonedTheme n ∉ metaEvs env t := by
  unfold metaEvs
  split
  · simp
  · split <;> simp

/-- When a display name was supplied, the meta-rewrite step is attempted:
it records an outcome event. -/
theorem metaEvs_nonempty (env : Env) (t : ThemeSel) (h : t.displayName ≠ "") :
    metaEvs env t ≠ [] := by
  unfold metaEvs
  simp only [h, if_false]
  split <;> simp

/-- Log membership is preserved through the theme loop. -/
theorem runThemes_log_mono (env : Env) (l : List ThemeSel) (st : FsState)
    (log : List Ev) (e : Ev) (he : e ∈ log) : e ∈ (runThemes env l st log).2.2 := by
  rw [runThemes_log]
  exact List.mem_append_left _ he

/-- Log membership is preserved through the plugin loop. -/
theorem runPlugins_log_mono (env : Env) (l : List String) (st : FsState)
    (log : List Ev) (e : Ev) (he : e ∈ log) : e ∈ (runPlugins env l st log).2.2 := by
  rw [runPlugins_log]
  exact List.mem_append_left _ he

/-- When every theme entry's destination pre-exists or its clone succeeds,
the theme loop completes. -/
theorem runThemes_ok_of (env : Env) (l : List ThemeSel)
    (h : ∀ t ∈ l, env.themeDestExists t.name = true ∨ env.themeCloneOk t.url = true) :
    ∀ (st : FsState) (log : List Ev), (runThemes env l st log).1 = Except.ok () := by
  induction l with
  | nil => intro st log; simp [runThemes]
  | cons t rest ih =>
    intro st log
    have ht := h t (List.mem_cons_self ..)
    have hrest := fun t' h' => h t' (List.mem_cons_of_mem _ h')
    simp only [runThemes]
    split
    · exact ih hrest ..
    · split
      · exact ih hrest ..
      · rename_i h1 h2
        rcases ht with hd | hc
        · simp [hd] at h1
        · exact absurd hc h2

/-- When every plugin entry's destination pre-exists or its clone
succeeds, the plugin loop completes. -/
theorem runPlugins_ok_of (env : Env) (l : List String)
    (h : ∀ u ∈ l, env.pluginDestExists (deriveRepoName u) = true ∨ env.pluginCloneOk u = true) :
    ∀ (st : FsState) (log : List Ev), (runPlugins env l st log).1 = Except.ok () := by
  induction l with
  | nil => intro st log; simp [runPlugins]
  | cons u rest ih =>
    intro st log
    have hu := h u (List.mem_cons_self ..)
    have hrest := fun u' h' => h u' (List.mem_cons_of_mem _ h')
    simp only [runPlugins]
    split
    · exact ih hrest ..
    · split
      · exact ih hrest ..
      · rename_i h1 h2
        rcases hu with hd | hc
        · simp [hd] at h1
        · exact absurd hc h2

/-- Every pre-existing theme entry contributes its skip warning and its
meta-rewrite events to the theme loop's log (when the loop completes on
every entry). -/
theorem runThemes_mem_of (env : Env) (l : List ThemeSel)
    (hok : ∀ t ∈ l, env.themeDestExists t.name = true ∨ env.themeCloneOk t.url = true) :
    ∀ (st : FsState) (log : List Ev) (t : ThemeSel), t ∈ l →
      env.themeDestExists t.name = true →
      Ev.warnSkipTheme t.name ∈ (runThemes env l st log).2.2 ∧
      ∀ e ∈ metaEvs env t, e ∈ (runThemes env l st log).2.2 := by
  induction l with
  | nil => intro st log t ht; exact absurd ht (List.not_mem_nil t)
  | cons a rest ih =>
    intro st log t ht hdest
    have hrest := fun t' h' => hok t' (List.mem_cons_of_mem _ h')
    rcases List.mem_cons.1 ht with rfl | htl
    · simp only [runThemes]
      split
      · constructor
        · exact runThemes_log_mono env rest st _ _ (by simp)
        · intro e he
          exact runThemes_log_mono env rest st _ _ (by simp [he])
      · rename_i h1
        simp [hdest] at h1
    · simp only [runThemes]
      split
      · exact ih hrest _ _ t htl hdest
      · split
        · exact ih hrest _ _ t htl hdest
        · rename_i h1 h2
          rcases hok a (List.mem_cons_self ..) with hd | hc
          · simp [hd] at h1
          · exact absurd hc h2

/-- A theme name whose destination pre-exists in the environment is never
cloned by the theme loop. -/
theorem runThemes_no_cloned (env : Env) (n : String)
    (hdest : env.themeDestExists n = true) :
    ∀ (l : List ThemeSel) (st : FsState) (log : List Ev),
      Ev.clonedTheme n ∉ log → Ev.clonedTheme n ∉ (runThemes env l st log).2.2 := by
  intro l
  induction l with
  | nil => intro st log h; simpa [runThemes] using h
  | cons t rest ih =>
    intro st log h
    simp only [runThemes]
    split
    · exact ih _ _ (by simp [h, metaEvs_no_cloned env t n])
    · split
      · rename_i h1 h2
        have hne : ¬(n = t.name) := by
          intro heq
          rw [← heq] at h1
          simp [hdest] at h1
        exact ih _ _ (by simp [h, hne, metaEvs_no_cloned env t n])
      · simpa using h

/-- The plugin loop never emits a theme-clone event. -/
theorem runPlugins_no_cloned_theme (env : Env) (n : String) :
    ∀ (l : List String) (st : FsState) (log : List Ev),
      Ev.clonedTheme n ∉ log → Ev.clonedTheme n ∉ (runPlugins env l st log).2.2 := by
  intro l
  induction l with
  | nil => intro st log h; simpa [runPlugins] using h
  | cons u rest ih =>
    intro st log h
    simp only [runPlugins]
    split
    · exact ih _ _ (by simp [h])
    · split
      · exact ih _ _ (by simp [h])
      · simpa using h

/-- The install-and-write phase completes when every entry can be skipped
or cloned and the ignore-file write succeeds; pre-existing theme entries
get their skip warning and meta events into the log, and are never
cloned. -/
theorem runInstallAndWrite_spec (env : Env) (req : Request) (st : FsState) (log : List Ev)
    (hw : env.writeOk = true)
    (hth : ∀ t ∈ req.themes, env.themeDestExists t.name = true ∨ env.themeCloneOk t.url = true)
    (hpl : ∀ u ∈ req.plugins,
      env.pluginDestExists (deriveRepoName u) = true ∨ env.pluginCloneOk u = true) :
    (runInstallAndWrite env req st log).1 = Except.ok () ∧
    ∀ t ∈ req.themes, env.themeDestExists t.name = true →
      Ev.warnSkipTheme t.name ∈ (runInstallAndWrite env req st log).2.2 ∧
      (∀ e ∈ metaEvs env t, e ∈ (runInstallAndWrite env req st log).2.2) ∧
      (Ev.clonedTheme t.name ∉ log →
        Ev.clonedTheme t.name ∉ (runInstallAndWrite env req st log).2.2) := by
  unfold runInstallAndWrite
  rcases hT : runThemes env req.themes st log with ⟨rT, stT, logT⟩
  have hokT := runThemes_ok_of env req.themes hth st log
  rw [hT] at hokT
  simp only at hokT
  subst hokT
  dsimp only
  rcases hP : runPlugins env req.plugins stT logT with ⟨rP, stP, logP⟩
  have hokP := runPlugins_ok_of env req.plugins hpl stT logT
  rw [hP] at hokP
  simp only at hokP
  subst hokP
  dsimp only
  have hmemP : ∀ e, e ∈ logT → e ∈ logP := by
    intro e he
    have := runPlugins_log_mono env req.plugins stT logT e he
    rw [hP] at this
    exact this
  have hnoP : ∀ n, Ev.clonedTheme n ∉ logT → Ev.clonedTheme n ∉ logP := by
    intro n hn
    have := runPlugins_no_cloned_theme env n req.plugins stT logT hn
    rw [hP] at this
    exact this
  constructor
  · split
    · simp [hw]
    · rfl
  · intro t htm hdest
    have hmemT := runThemes_mem_of env req.themes hth st log t htm hdest
    rw [hT] at hmemT
    simp only at hmemT
    have hnoT : Ev.clonedTheme t.name ∉ log → Ev.clonedTheme t.name ∉ logT := by
      intro hn
      have := runThemes_no_cloned env t.name hdest req.themes st log hn
      rw [hT] at this
      exact this
    refine ⟨?_, ?_, ?_⟩
    · have := hmemP _ hmemT.1
      split
      · simp [hw, this]
      · simpa using this
    · intro e he
      have := hmemP _ (hmemT.2 e he)
      split
      · simp [hw, this]
      · simpa using this
    · intro hn
      have := hnoP _ (hnoT hn)
      split
      · simp [hw]
        simpa using this
      · simpa using this

/-- C5: a pre-existing destination of a theme selection is never fatal —
when every other step succeeds the run completes, the pre-existing entry's
clone is skipped with a warning, no clone of that folder name happens, and
the metadata rewrite is still attempted (it records an outcome) whenever a
display name was supplied. -/
theorem theme_preexisting_skip_nonfatal (env : Env) (req : Request)
    (hdest : env.destExists = false) (hmk : env.mkdtempOk = true)
    (hdl : env.downloadOk = true) (hex : env.extractOk = true)
    (htd : env.hasTopDir = true) (hcp : env.copyOk = true) (hw : env.writeOk = true)
    (hth : ∀ t ∈ req.themes, env.themeDestExists t.name = true ∨ env.themeCloneOk t.url = true)
    (hpl : ∀ u ∈ req.plugins,
      env.pluginDestExists (deriveRepoName u) = true ∨ env.pluginCloneOk u = true) :
    (runCreateProject env req).1 = RunResult.completed ∧
    ∀ t ∈ req.themes, env.themeDestExists t.name = true →
      Ev.warnSkipTheme t.name ∈ (runCreateProject env req).2.2 ∧
      Ev.clonedTheme t.name ∉ (runCreateProject env req).2.2 ∧
      (∀ e ∈ metaEvs env t, e ∈ (runCreateProject env req).2.2) ∧
      (t.displayName ≠ "" → metaEvs env t ≠ []) := by
  have hsteps : runSteps env req
      = runInstallAndWrite env req ⟨true, true, [], [], false⟩
          (releaseLog env ++ [Ev.downloaded (zipUrl env)]) := by
    unfold runSteps
    simp [hmk, hdl, hex, htd, hcp]
  have hspec := runInstallAndWrite_spec env req ⟨true, true, [], [], false⟩
    (releaseLog env ++ [Ev.downloaded (zipUrl env)]) hw hth hpl
  have hnolog : ∀ n, Ev.clonedTheme n ∉ releaseLog env ++ [Ev.downloaded (zipUrl env)] := by
    intro n
    unfold releaseLog
    cases env.release <;> simp
  unfold runCreateProject
  rw [hsteps] at *
  simp only [hdest, Bool.false_eq_true, if_false]
  rcases hI : runInstallAndWrite env req ⟨true, true, [], [], false⟩
      (releaseLog env ++ [Ev.downloaded (zipUrl env)]) with ⟨rI, stI, logI⟩
  rw [hI] at hspec
  simp only at hspec
  obtain ⟨hok, hmem⟩ := hspec
  subst hok
  dsimp only
  refine ⟨rfl, ?_⟩
  intro t htm hdt
  obtain ⟨h1, h2, h3⟩ := hmem t htm hdt
  exact ⟨h1, h3 (hnolog t.name), h2, metaEvs_nonempty env t⟩

/-- Witness for C5: with one pre-existing theme (`alpha`, display name
supplied, `style.css` absent) and one freshly cloned theme, the run
completes, `alpha` is warned about and never cloned, and its meta-rewrite
outcome (a missing-stylesheet warning) is logged. -/
theorem theme_preexisting_skip_nonfatal_witness :
    (runCreateProject
      { destExists := false, mkdtempOk := true, release := some (some "https://z"),
        downloadOk := true, extractOk := true, hasTopDir := true, copyOk := true,
        themeDestExists := fun n => n == "alpha", themeCloneOk := fun _ => true,
        themeStyleCss := fun _ => none, pluginDestExists := fun _ => false,
        pluginCloneOk := fun _ => true, writeOk := true }
      { themes := [⟨"https://host/o/alpha", "alpha", "Alpha"⟩,
                   ⟨"https://host/o/beta", "beta", "Beta"⟩],
        plugins := ["https://host/o/plug"], includeGitignore := true }).1
      = RunResult.completed ∧
    Ev.warnSkipTheme "alpha" ∈
      (runCreateProject
        { destExists := false, mkdtempOk := true, release := some (some "https://z"),
          downloadOk := true, extractOk := true, hasTopDir := true, copyOk := true,
          themeDestExists := fun n => n == "alpha", themeCloneOk := fun _ => true,
          themeStyleCss := fun _ => none, pluginDestExists := fun _ => false,
          pluginCloneOk := fun _ => true, writeOk := true }
        { themes := [⟨"https://host/o/alpha", "alpha", "Alpha"⟩,
                     ⟨"https://host/o/beta", "beta", "Beta"⟩],
          plugins := ["https://host/o/plug"], includeGitignore := true }).2.2 ∧
    Ev.clonedTheme "alpha" ∉
      (runCreateProject
        { destExists := false, mkdtempOk := true, release := some (some "https://z"),
          downloadOk := true, extractOk := true, hasTopDir := true, copyOk := true,
          themeDestExists := fun n => n == "alpha", themeCloneOk := fun _ => true,
          themeStyleCss := fun _ => none, pluginDestExists := fun _ => false,
          pluginCloneOk := fun _ => true, writeOk := true }
        { themes := [⟨"https://host/o/alpha", "alpha", "Alpha"⟩,
                     ⟨"https://host/o/beta", "beta", "Beta"⟩],
          plugins := ["https://host/o/plug"], includeGitignore := true }).2.2 ∧
    Ev.metaMissing "alpha" ∈
      (runCreateProject
        { destExists := false, mkdtempOk := true, release := some (some "https://z"),
          downloadOk := true, extractOk := true, hasTopDir := true, copyOk := true,
          themeDestExists := fun n => n == "alpha", themeCloneOk := fun _ => true,
          themeStyleCss := fun _ => none, pluginDestExists := fun _ => false,
          pluginCloneOk := fun _ => true, writeOk := true }
        { themes := [⟨"https://host/o/alpha", "alpha", "Alpha"⟩,
                     ⟨"https://host/o/beta", "beta", "Beta"⟩],
          plugins := ["https://host/o/plug"], includeGitignore := true }).2.2 := by
  have h := theme_preexisting_skip_nonfatal
    { destExists := false, mkdtempOk := true, release := some (some "https://z"),
      downloadOk := true, extractOk := true, hasTopDir := true, copyOk := true,
      themeDestExists := fun n => n == "alpha", themeCloneOk := fun _ => true,
      themeStyleCss := fun _ => none, pluginDestExists := fun _ => false,
      pluginCloneOk := fun _ => true, writeOk := true }
    { themes := [⟨"https://host/o/alpha", "alpha", "Alpha"⟩,
                 ⟨"https://host/o/beta", "beta", "Beta"⟩],
      plugins := ["https://host/o/plug"], includeGitignore := true }
    rfl rfl rfl rfl rfl rfl rfl (by decide) (by decide)
  have h2 := h.2 ⟨"https://host/o/alpha", "alpha", "Alpha"⟩ (by decide) (by decide)
  exact ⟨h.1, h2.1, h2.2.1, h2.2.2.1 (Ev.metaMissing "alpha") (by decide)⟩

/-! ## Claim C9 — `slugify` example value and idempotence -/

theorem noAdjPair_cons_cons (p : Char → Bool) (c d : Char) (rest : List Char) :
    noAdjPair p (c :: d :: rest) = ((!(p c && p d)) && noAdjPair p (d :: rest)) := rfl

theorem collapseRuns_mem (p : Char → Bool) (r : Char) :
    ∀ (l : List Char) (c : Char), c ∈ collapseRuns p r l →
      c = r ∨ (p c = false ∧ c ∈ l) := by
  intro l
  induction l with
  | nil => intro c hc; simp [collapseRuns] at hc
  | cons a l ih =>
    intro c hc
    cases l with
    | nil =>
      cases hp : p a
      · simp [collapseRuns, hp] at hc
        subst hc
        exact Or.inr ⟨hp, by simp⟩
      · simp [collapseRuns, hp] at hc
        exact Or.inl hc
    | cons b l' =>
      by_cases h1 : (p a && p b) = true
      · simp only [collapseRuns, h1, if_true] at hc
        rcases ih c hc with h | ⟨h2, h3⟩
        · exact Or.inl h
        · exact Or.inr ⟨h2, List.mem_cons_of_mem _ h3⟩
      · simp only [collapseRuns, h1, if_false] at hc
        rcases List.mem_cons.1 hc with hc | hc
        · cases hp : p a
          · rw [hp] at hc
            simp only [Bool.false_eq_true, if_false] at hc
            subst hc
            exact Or.inr ⟨hp, by simp⟩
          · rw [hp] at hc
            simp only [if_true] at hc
            exact Or.inl hc
        · rcases ih c hc with h | ⟨h2, h3⟩
          · exact Or.inl h
          · exact Or.inr ⟨h2, List.mem_cons_of_mem _ h3⟩

theorem collapseRuns_head (p : Char → Bool) (r : Char) (d : Char) (rest : List Char)
    (hd : p d = false) :
    ∃ t, collapseRuns p r (d :: rest) = d :: t := by
  cases rest with
  | nil => exact ⟨[], by simp [collapseRuns, hd]⟩
  | cons e rest' =>
    refine ⟨collapseRuns p r (e :: rest'), ?_⟩
    simp [collapseRuns, hd]

theorem collapseRuns_noAdj (p : Char → Bool) (r : Char) :
    ∀ l : List Char, noAdjPair p (collapseRuns p r l) = true := by
  intro l
  induction l with
  | nil => simp [collapseRuns, noAdjPair]
  | cons a l ih =>
    cases l with
    | nil =>
      cases hp : p a <;> simp [collapseRuns, hp, noAdjPair]
    | cons b l' =>
      by_cases h1 : (p a && p b) = true
      · simpa [collapseRuns, h1] using ih
      · simp only [collapseRuns, h1, if_false]
        cases hpa : p a
        · simp only [Bool.false_eq_true, if_false]
          rcases hout : collapseRuns p r (b :: l') with _ | ⟨e, t⟩
          · simp [noAdjPair]
          · rw [noAdjPair_cons_cons, hpa]
            simp only [Bool.false_and, Bool.not_false, Bool.true_and]
            rw [← hout]
            exact ih
        · have hpb : p b = false := by
            cases hb : p b
            · rfl
            · exact absurd (by simp [hpa, hb]) h1
          obtain ⟨t, ht⟩ := collapseRuns_head p r b l' hpb
          simp only [if_true, ht]
          simp only [Bool.false_eq_true, if_false]
          rw [noAdjPair_cons_cons, hpb]
          simp only [Bool.and_false, Bool.not_false, Bool.true_and]
          rw [← ht]
          exact ih

theorem collapseRuns_id (p : Char → Bool) (r : Char) :
    ∀ l : List Char, noAdjPair p l = true → (∀ c ∈ l, p c = true → c = r) →
      collapseRuns p r l = l := by
  intro l
  induction l with
  | nil => intro _ _; rfl
  | cons a l ih =>
    intro hadj hall
    cases l with
    | nil =>
      cases hp : p a
      · simp [collapseRuns, hp]
      · simp [collapseRuns, hp, hall a (by simp) hp]
    | cons b l' =>
      rw [noAdjPair_cons_cons] at hadj
      obtain ⟨hnab, hadj'⟩ := Bool.and_eq_true_iff.1 hadj
      have h1 : (p a && p b) = false := by
        cases h : (p a && p b)
        · rfl
        · rw [h] at hnab; simp at hnab
      have hrec := ih hadj' (fun c hc hp => hall c (List.mem_cons_of_mem _ hc) hp)
      simp only [collapseRuns, h1, Bool.false_eq_true, if_false, hrec]
      cases hp : p a
      · simp
      · simp [hall a (by simp) hp]

/-- Characters survive `dropTrailingIf`. -/
theorem dropTrailingIf_mem (q : Char → Bool) :
    ∀ (l : List Char) (c : Char), c ∈ dropTrailingIf q l → c ∈ l := by
  intro l
  induction l with
  | nil => intro c hc; simp [dropTrailingIf] at hc
  | cons a l ih =>
    intro c hc
    simp only [dropTrailingIf] at hc
    rcases hd : dropTrailingIf q l with _ | ⟨e, t⟩
    · rw [hd] at hc
      cases hq : q a
      · rw [hq] at hc
        simp only [Bool.false_eq_true, if_false, List.mem_singleton] at hc
        subst hc
        exact List.mem_cons_self ..
      · rw [hq] at hc
        simp at hc
    · rw [hd] at hc
      rcases List.mem_cons.1 hc with rfl | hc
      · simp
      · exact List.mem_cons_of_mem _ (ih c (by rw [hd]; exact hc))

/-- `dropTrailingIf` keeps the head of the list (when nonempty). -/
theorem dropTrailingIf_head (q : Char → Bool) :
    ∀ (l : List Char) (c : Char) (t : List Char),
      dropTrailingIf q l = c :: t → ∃ t', l = c :: t' := by
  intro l
  induction l with
  | nil => intro c t h; simp [dropTrailingIf] at h
  | cons a l ih =>
    intro c t h
    simp only [dropTrailingIf] at h
    rcases hd : dropTrailingIf q l with _ | ⟨e, t'⟩
    · rw [hd] at h
      cases hq : q a
      · rw [hq] at h
        simp only [Bool.false_eq_true, if_false] at h
        injection h with h1 h2
        exact ⟨l, by rw [h1]⟩
      · rw [hq] at h
        simp at h
    · rw [hd] at h
      injection h with h1 h2
      exact ⟨l, by rw [h1]⟩

/-- The last character left by `dropTrailingIf` does not satisfy `q`. -/
theorem dropTrailingIf_getLast (q : Char → Bool) :
    ∀ (l : List Char) (c : Char), (dropTrailingIf q l).getLast? = some c → q c = false := by
  intro l
  induction l with
  | nil => intro c h; simp [dropTrailingIf] at h
  | cons a l ih =>
    intro c h
    simp only [dropTrailingIf] at h
    rcases hd : dropTrailingIf q l with _ | ⟨e, t⟩
    · rw [hd] at h
      cases hq : q a
      · rw [hq] at h
        simp only [Bool.false_eq_true, if_false] at h
        simp only [List.getLast?_singleton, Option.some.injEq] at h
        subst h
        exact hq
      · rw [hq] at h
        simp at h
    · rw [hd] at h
      have : (a :: e :: t).getLast? = (e :: t).getLast? := List.getLast?_cons_cons ..
      rw [this] at h
      exact ih c (by rw [hd]; exact h)

/-- `dropTrailingIf` preserves the no-adjacent-pair property. -/
theorem dropTrailingIf_noAdj (p q : Char → Bool) :
    ∀ l : List Char, noAdjPair p l = true → noAdjPair p (dropTrailingIf q l) = true := by
  intro l
  induction l with
  | nil => intro h; simpa [dropTrailingIf] using h
  | cons a l ih =>
    intro h
    have hl : noAdjPair p l = true := by
      cases l with
      | nil => rfl
      | cons b l' =>
        rw [noAdjPair_cons_cons] at h
        exact (Bool.and_eq_true_iff.1 h).2
    simp only [dropTrailingIf]
    rcases hd : dropTrailingIf q l with _ | ⟨e, t⟩
    · cases hq : q a <;> simp [noAdjPair]
    · obtain ⟨t', ht'⟩ := dropTrailingIf_head q l e t hd
      subst ht'
      rw [noAdjPair_cons_cons] at h ⊢
      obtain ⟨hab, _⟩ := Bool.and_eq_true_iff.1 h
      refine Bool.and_eq_true_iff.2 ⟨hab, ?_⟩
      rw [← hd]
      exact ih hl

/-- `List.dropWhile` preserves the no-adjacent-pair property. -/
theorem dropWhile_noAdj (p q : Char → Bool) :
    ∀ l : List Char, noAdjPair p l = true → noAdjPair p (l.dropWhile q) = true := by
  intro l
  induction l with
  | nil => intro h; simpa using h
  | cons a l ih =>
    intro h
    have hl : noAdjPair p l = true := by
      cases l with
      | nil => rfl
      | cons b l' =>
        rw [noAdjPair_cons_cons] at h
        exact (Bool.and_eq_true_iff.1 h).2
    cases hq : q a
    · simpa [List.dropWhile, hq] using h
    · simp only [List.dropWhile, hq]
      exact ih hl

/-- The head left by `List.dropWhile` does not satisfy `q`. -/
theorem dropWhile_head (q : Char → Bool) :
    ∀ (l : List Char) (c : Char), (l.dropWhile q).head? = some c → q c = false := by
  intro l
  induction l with
  | nil => intro c h; simp at h
  | cons a l ih =>
    intro c h
    cases hq : q a
    · rw [List.dropWhile_cons_of_neg (by simp [hq])] at h
      simp only [List.head?_cons, Option.some.injEq] at h
      subst h
      exact hq
    · rw [List.dropWhile_cons_of_pos hq] at h
      exact ih c h

/-- `dropTrailingIf` is the identity when the last character is not `q`. -/
theorem dropTrailingIf_id (q : Char → Bool) :
    ∀ l : List Char, (∀ c, l.getLast? = some c → q c = false) → dropTrailingIf q l = l := by
  intro l
  induction l with
  | nil => intro _; rfl
  | cons a l ih =>
    intro h
    cases l with
    | nil =>
      have ha := h a (by simp)
      simp [dropTrailingIf, ha]
    | cons b l' =>
      have hrec : dropTrailingIf q (b :: l') = b :: l' :=
        ih (fun c hc => h c (by rw [List.getLast?_cons_cons]; exact hc))
      have heq : dropTrailingIf q (a :: b :: l')
          = match dropTrailingIf q (b :: l') with
            | [] => if q a = true then [] else [a]
            | t => a :: t := rfl
      rw [heq, hrec]

/-- `List.dropWhile` is the identity when the head does not satisfy `q`. -/
theorem dropWhile_id (q : Char → Bool) (l : List Char)
    (h : ∀ c, l.head? = some c → q c = false) : l.dropWhile q = l := by
  cases l with
  | nil => rfl
  | cons a t => exact List.dropWhile_cons_of_neg (by simp [h a rfl])

/-- `List.map` is the identity on pointwise-fixed lists. -/
theorem map_id_on (f : Char → Char) :
    ∀ l : List Char, (∀ c ∈ l, f c = c) → l.map f = l := by
  intro l
  induction l with
  | nil => intro _; rfl
  | cons a t ih =>
    intro h
    simp [h a (by simp), ih (fun c hc => h c (List.mem_cons_of_mem _ hc))]

/-- `List.filter` is the identity on pointwise-accepted lists. -/
theorem filter_id_on (q : Char → Bool) :
    ∀ l : List Char, (∀ c ∈ l, q c = true) → l.filter q = l := by
  intro l
  induction l with
  | nil => intro _; rfl
  | cons a t ih =>
    intro h
    simp [List.filter_cons, h a (by simp), ih (fun c hc => h c (List.mem_cons_of_mem _ hc))]

/-- `listNfkd` is the identity on pointwise-undecomposed lists. -/
theorem listNfkd_id :
    ∀ l : List Char, (∀ c ∈ l, nfkdChar c = [c]) → listNfkd l = l := by
  intro l
  induction l with
  | nil => intro _; rfl
  | cons a t ih =>
    intro h
    have : listNfkd (a :: t) = nfkdChar a ++ listNfkd t := rfl
    rw [this, h a (by simp), ih (fun c hc => h c (List.mem_cons_of_mem _ hc))]
    rfl

/-- The code point of a character of the slug alphabet `[a-z0-9-]`. -/
theorem canonChar_toNat (c : Char) (h : (isLowerAlnum c || c == '-') = true) :
    c.toNat = 45 ∨ (48 ≤ c.toNat ∧ c.toNat ≤ 57) ∨ (97 ≤ c.toNat ∧ c.toNat ≤ 122) := by
  rcases Bool.or_eq_true_iff.1 h with h1 | h2
  · simp only [isLowerAlnum, Bool.or_eq_true, Bool.and_eq_true, decide_eq_true_eq] at h1
    rcases h1 with ⟨ha, hb⟩ | ⟨ha, hb⟩
    · exact Or.inr (Or.inr ⟨ha, hb⟩)
    · exact Or.inr (Or.inl ⟨ha, hb⟩)
  · have : c = '-' := by simpa using h2
    subst this
    exact Or.inl rfl

/-- Characters with different code points are not `==`. -/
theorem char_bne_of_toNat (c d : Char) (h : c.toNat ≠ d.toNat) : (c == d) = false := by
  cases hcd : c == d
  · rfl
  · exact absurd (congrArg Char.toNat (eq_of_beq hcd)) h

/-- No slug-alphabet character decomposes under the NFKD model. -/
theorem nfkdChar_canon (c : Char) (h : (isLowerAlnum c || c == '-') = true) :
    nfkdChar c = [c] := by
  have ht := canonChar_toNat c h
  have h1 : c.toNat ≠ 0xE9 := by omega
  have h2 : c.toNat ≠ 0xC9 := by omega
  simp [nfkdChar, h1, h2]

/-- No slug-alphabet character is a combining mark. -/
theorem isCombiningMark_canon (c : Char) (h : (isLowerAlnum c || c == '-') = true) :
    isCombiningMark c = false := by
  have ht := canonChar_toNat c h
  have h1 : (768 ≤ c.toNat) = False := eq_false (by omega)
  simp [isCombiningMark, h1]

/-- No slug-alphabet character is upper-case ASCII. -/
theorem asciiLower_canon (c : Char) (h : (isLowerAlnum c || c == '-') = true) :
    asciiLower c = c := by
  have ht := canonChar_toNat c h
  unfold asciiLower
  rw [if_neg]
  simp only [Bool.and_eq_true, decide_eq_true_eq, not_and]
  omega

/-- No slug-alphabet character is whitespace. -/
theorem jsWs_canon (c : Char) (h : (isLowerAlnum c || c == '-') = true) :
    jsWsChar c = false := by
  have ht := canonChar_toNat c h
  unfold jsWsChar
  rw [char_bne_of_toNat c ' ' (by rw [show (' ' : Char).toNat = 32 from rfl]; omega),
      char_bne_of_toNat c '\t' (by rw [show ('\t' : Char).toNat = 9 from rfl]; omega),
      char_bne_of_toNat c '\n' (by rw [show ('\n' : Char).toNat = 10 from rfl]; omega),
      char_bne_of_toNat c '\r' (by rw [show ('\r' : Char).toNat = 13 from rfl]; omega),
      char_bne_of_toNat c '\x0b' (by rw [show ('\x0b' : Char).toNat = 11 from rfl]; omega),
      char_bne_of_toNat c '\x0c' (by rw [show ('\x0c' : Char).toNat = 12 from rfl]; omega)]
  rfl

/-- The no-adjacent-pair property is antitone in the predicate. -/
theorem noAdjPair_mono (p q : Char → Bool) (hpq : ∀ c, q c = true → p c = true) :
    ∀ l : List Char, noAdjPair p l = true → noAdjPair q l = true := by
  intro l
  induction l with
  | nil => intro _; rfl
  | cons a l ih =>
    cases l with
    | nil => intro _; rfl
    | cons b t =>
      intro h
      rw [noAdjPair_cons_cons] at h ⊢
      obtain ⟨h1, h2⟩ := Bool.and_eq_true_iff.1 h
      refine Bool.and_eq_true_iff.2 ⟨?_, ih h2⟩
      cases hqa : q a
      · simp
      · cases hqb : q b
        · simp
        · rw [hpq a hqa, hpq b hqb] at h1
          simp at h1

/-- The tail of the slugify pipeline — collapse non-alphanumerics, strip
edge hyphens, collapse hyphens — always produces a canonical slug. -/
theorem canon_pipeline (l4 : List Char) :
    isCanonSlug (collapseRuns (fun c => c == '-') '-'
      (dropTrailingIf (· == '-')
        ((collapseRuns (fun c => !isLowerAlnum c) '-' l4).dropWhile (· == '-')))) = true := by
  have hmem5 : ∀ c ∈ collapseRuns (fun c => !isLowerAlnum c) '-' l4,
      (isLowerAlnum c || c == '-') = true := by
    intro c hc
    rcases collapseRuns_mem _ _ l4 c hc with rfl | ⟨h2, _⟩
    · simp
    · simp only [Bool.not_eq_false'] at h2
      simp [h2]
  have hadj5 := collapseRuns_noAdj (fun c => !isLowerAlnum c) '-' l4
  set l5 := collapseRuns (fun c => !isLowerAlnum c) '-' l4 with hl5
  set l6 := dropTrailingIf (· == '-') (l5.dropWhile (· == '-')) with hl6
  have hmem6 : ∀ c ∈ l6, (isLowerAlnum c || c == '-') = true := by
    intro c hc
    exact hmem5 c ((List.dropWhile_sublist _).mem (dropTrailingIf_mem _ _ c hc))
  have hadj6 : noAdjPair (fun c => !isLowerAlnum c) l6 = true :=
    dropTrailingIf_noAdj _ _ _ (dropWhile_noAdj _ _ _ hadj5)
  have hadj6' : noAdjPair (fun c => c == '-') l6 = true := by
    refine noAdjPair_mono _ _ ?_ _ hadj6
    intro c hc
    have : c = '-' := by simpa using hc
    subst this
    decide
  have hid : collapseRuns (fun c => c == '-') '-' l6 = l6 := by
    refine collapseRuns_id _ _ _ hadj6' ?_
    intro c _ hc
    simpa using hc
  rw [hid]
  have hhead6 : ∀ c t, l6 = c :: t → (c == '-') = false := by
    intro c t h6
    obtain ⟨t', ht'⟩ := dropTrailingIf_head _ _ c t h6
    exact dropWhile_head _ _ c (by rw [ht']; rfl)
  have hlast6 : ∀ c, l6.getLast? = some c → (c == '-') = false :=
    fun c hc => dropTrailingIf_getLast _ _ c (hl6 ▸ hc)
  unfold isCanonSlug
  refine Bool.and_eq_true_iff.2 ⟨Bool.and_eq_true_iff.2 ⟨Bool.and_eq_true_iff.2 ⟨?_, hadj6⟩, ?_⟩, ?_⟩
  · exact List.all_eq_true.2 hmem6
  · rcases h6 : l6 with _ | ⟨c, t⟩
    · rfl
    · simp only [List.head?_cons]
      simp [hhead6 c t h6]
  · rcases hg : l6.getLast? with _ | c
    · rfl
    · simp [hlast6 c hg]

/-- `slugify` always produces a canonical slug. -/
theorem slugify_canon (x : String) : isCanonSlug (slugify x).data = true := by
  unfold slugify
  dsimp only
  exact canon_pipeline _

/-- `slugify` is the identity on canonical slugs. -/
theorem slugify_canon_id (y : List Char) (h : isCanonSlug y = true) :
    slugify (String.mk y) = String.mk y := by
  unfold isCanonSlug at h
  obtain ⟨h123, hlast⟩ := Bool.and_eq_true_iff.1 h
  obtain ⟨h12, hhead⟩ := Bool.and_eq_true_iff.1 h123
  obtain ⟨hall, hadj⟩ := Bool.and_eq_true_iff.1 h12
  have hmem : ∀ c ∈ y, (isLowerAlnum c || c == '-') = true := List.all_eq_true.1 hall
  have e1 : listNfkd y = y := listNfkd_id y (fun c hc => nfkdChar_canon c (hmem c hc))
  have e2 : y.filter (fun c => !isCombiningMark c) = y :=
    filter_id_on _ y (fun c hc => by simp [isCombiningMark_canon c (hmem c hc)])
  have e3 : y.map asciiLower = y := map_id_on _ y (fun c hc => asciiLower_canon c (hmem c hc))
  have e4 : trimChars y = y := by
    unfold trimChars
    rw [dropWhile_id jsWsChar y
      (fun c hc => jsWs_canon c (hmem c (List.mem_of_mem_head? (by rw [hc]; rfl))))]
    exact dropTrailingIf_id jsWsChar y
      (fun c hc => jsWs_canon c (hmem c (List.mem_of_mem_getLast? (by rw [hc]; rfl))))
  have e5 : collapseRuns (fun c => !isLowerAlnum c) '-' y = y := by
    refine collapseRuns_id _ _ y hadj ?_
    intro c hc hp
    rcases Bool.or_eq_true_iff.1 (hmem c hc) with h1 | h2
    · rw [h1] at hp; simp at hp
    · simpa using h2
  have e6 : y.dropWhile (· == '-') = y := by
    refine dropWhile_id _ y ?_
    intro c hc
    rcases hy : y with _ | ⟨a, t⟩
    · rw [hy] at hc; simp at hc
    · rw [hy] at hc
      simp only [List.head?_cons, Option.some.injEq] at hc
      subst hc
      rw [hy] at hhead
      simpa using hhead
  have e7 : dropTrailingIf (· == '-') y = y := by
    refine dropTrailingIf_id _ y ?_
    intro c hc
    rw [hc] at hlast
    simpa using hlast
  have e8 : collapseRuns (fun c => c == '-') '-' y = y := by
    refine collapseRuns_id _ _ y ?_ ?_
    · refine noAdjPair_mono _ _ ?_ y hadj
      intro c hc
      have : c = '-' := by simpa using hc
      subst this
      decide
    · intro c _ hc
      simpa using hc
  unfold slugify
  dsimp only
  rw [e1, e2, e3, e4, e5, e6, e7, e8]

set_option maxRecDepth 4096 in
/-- C9: `slugify "My Théme!! 2" = "my-theme-2"`, and `slugify` is
idempotent on every string. -/
theorem slugify_example_and_idempotent :
    slugify "My Théme!! 2" = "my-theme-2" ∧
    ∀ x : String, slugify (slugify x) = slugify x := by
  constructor
  · decide
  · intro x
    have h := slugify_canon_id (slugify x).data (slugify_canon x)
    exact h

/-! ## Claims C6 and C10 — the metadata rewrite -/

/-- Characterization of a successful field-replacement scan: the first
matching line (no earlier match, no earlier header terminator) is replaced
by its captured prefix followed by the replacement text. -/
theorem replaceFieldLoop_some (w1 w2 txt : String) :
    ∀ (lines : List (List Char)) (fuel : Nat) (out : List (List Char)),
      replaceFieldLoop w1 w2 txt fuel lines = some out →
      ∃ (A : List (List Char)) (li : List Char) (B : List (List Char)) (pre val : List Char),
        lines = A ++ li :: B ∧
        (∀ lj ∈ A, matchFieldLine w1 w2 lj = none ∧ isHeaderEnd lj = false) ∧
        matchFieldLine w1 w2 li = some (pre, val) ∧
        out = A ++ (pre ++ txt.data) :: B := by
  intro lines
  induction lines with
  | nil => intro fuel out h; cases fuel <;> simp [replaceFieldLoop] at h
  | cons l rest ih =>
    intro fuel out h
    cases fuel with
    | zero => simp [replaceFieldLoop] at h
    | succ fuel =>
      simp only [replaceFieldLoop] at h
      rcases hm : matchFieldLine w1 w2 l with _ | ⟨pre, val⟩
      · rw [hm] at h
        cases hend : isHeaderEnd l
        · rw [hend] at h
          simp only [Bool.false_eq_true, if_false] at h
          rcases hr : replaceFieldLoop w1 w2 txt fuel rest with _ | rest'
          · rw [hr] at h; simp at h
          · rw [hr] at h
            simp only [Option.some.injEq] at h
            subst h
            obtain ⟨A, li, B, pre, val, hsp, hA, hmt, hout⟩ := ih fuel rest' hr
            refine ⟨l :: A, li, B, pre, val, by simp [hsp], ?_, hmt, by simp [hout]⟩
            intro lj hlj
            rcases List.mem_cons.1 hlj with rfl | hlj
            · exact ⟨hm, hend⟩
            · exact hA lj hlj
        · rw [hend] at h; simp at h
      · rw [hm] at h
        simp only [Option.some.injEq] at h
        subst h
        exact ⟨[], l, rest, pre, val, rfl, by simp, hm, rfl⟩

/-- `spanWs` walks exactly over an all-whitespace block. -/
theorem spanWs_append (a : List Char) (ha : ∀ c ∈ a, jsWsChar c = true)
    (c0 : Char) (rest0 : List Char) (hc0 : jsWsChar c0 = false) :
    spanWs (a ++ c0 :: rest0) = (a, c0 :: rest0) := by
  induction a with
  | nil => simp [spanWs, List.takeWhile_cons, List.dropWhile_cons, hc0]
  | cons w a' ih =>
    have hw : jsWsChar w = true := ha w (by simp)
    have hrec := ih (fun c hc => ha c (List.mem_cons_of_mem _ hc))
    simp only [spanWs, Prod.mk.injEq] at hrec
    simp only [List.cons_append, spanWs, List.takeWhile_cons, List.dropWhile_cons, hw, if_true,
      Prod.mk.injEq]
    exact ⟨by rw [hrec.1], hrec.2⟩

/-- Rebuilding the comment prefix: a whitespace-only prefix followed by a
non-whitespace, non-star character is captured as-is. -/
theorem headerLinePre_rebuild_nostar (a : List Char) (ha : ∀ c ∈ a, jsWsChar c = true)
    (c0 : Char) (rest0 : List Char) (hc0 : jsWsChar c0 = false)
    (hstar : (c0 == '*') = false) :
    headerLinePre (a ++ c0 :: rest0) = (a, c0 :: rest0) := by
  have hdw : (a ++ c0 :: rest0).dropWhile jsWsChar = c0 :: rest0 :=
    congrArg Prod.snd (spanWs_append a ha c0 rest0 hc0)
  have htw : (a ++ c0 :: rest0).takeWhile jsWsChar = a :=
    congrArg Prod.fst (spanWs_append a ha c0 rest0 hc0)
  unfold headerLinePre
  rw [hdw]
  split
  · rename_i t heq
    injection heq with heq1 heq2
    rw [heq1] at hstar
    simp at hstar
  · rw [htw]

/-- Rebuilding the comment prefix: whitespace, a star, whitespace, then a
non-whitespace non-star character is captured as-is. -/
theorem headerLinePre_rebuild_star (a b : List Char)
    (ha : ∀ c ∈ a, jsWsChar c = true) (hb : ∀ c ∈ b, jsWsChar c = true)
    (c0 : Char) (rest0 : List Char) (hc0 : jsWsChar c0 = false) :
    headerLinePre (a ++ '*' :: (b ++ c0 :: rest0)) = (a ++ '*' :: b, c0 :: rest0) := by
  have hdw : (a ++ '*' :: (b ++ c0 :: rest0)).dropWhile jsWsChar = '*' :: (b ++ c0 :: rest0) :=
    congrArg Prod.snd (spanWs_append a ha '*' (b ++ c0 :: rest0) (by decide))
  have htw : (a ++ '*' :: (b ++ c0 :: rest0)).takeWhile jsWsChar = a :=
    congrArg Prod.fst (spanWs_append a ha '*' (b ++ c0 :: rest0) (by decide))
  have htw2 : (b ++ c0 :: rest0).takeWhile jsWsChar = b :=
    congrArg Prod.fst (spanWs_append b hb c0 rest0 hc0)
  have hdw2 : (b ++ c0 :: rest0).dropWhile jsWsChar = c0 :: rest0 :=
    congrArg Prod.snd (spanWs_append b hb c0 rest0 hc0)
  unfold headerLinePre
  rw [hdw]
  split
  · rename_i t heq
    injection heq with heq1 heq2
    subst heq2
    rw [htw, htw2, hdw2]
  · rename_i hne
    exact absurd rfl (hne (b ++ c0 :: rest0))

/-- `matchFieldLine` as a chain on the components of `headerLinePre`. -/
theorem matchFieldLine_eq (w1 w2 : String) (line : List Char) :
    matchFieldLine w1 w2 line =
      match matchWordCI w1.data (headerLinePre line).2 with
      | none => none
      | some r1 =>
        match matchWordCI w2.data (spanWs r1).2 with
        | none => none
        | some r2 =>
          match (spanWs r2).2 with
          | ':' :: r3 => some ((headerLinePre line).1, (spanWs r3).2)
          | _ => none := by
  unfold matchFieldLine
  rcases h : headerLinePre line with ⟨pre, r0⟩
  rfl

/-- The prefix captured by a successful `matchFieldLine` is whitespace, or
whitespace–star–whitespace. -/
theorem matchFieldLine_pre_shape (w1 w2 : String) (li pre val : List Char)
    (h : matchFieldLine w1 w2 li = some (pre, val)) :
    (∀ c ∈ pre, jsWsChar c = true) ∨
    (∃ a b, pre = a ++ '*' :: b ∧ (∀ c ∈ a, jsWsChar c = true) ∧ (∀ c ∈ b, jsWsChar c = true)) := by
  have hpre : pre = (headerLinePre li).1 := by
    rw [matchFieldLine_eq] at h
    split at h
    · exact absurd h (by simp)
    · split at h
      · exact absurd h (by simp)
      · split at h
        · simp only [Option.some.injEq, Prod.mk.injEq] at h
          exact h.1.symm
        · exact absurd h (by simp)
  rcases hh : headerLinePre li with ⟨pre0, r0⟩
  rw [hh] at hpre
  simp only at hpre
  subst hpre
  unfold headerLinePre at hh
  have hwA : ∀ c ∈ li.takeWhile jsWsChar, jsWsChar c = true :=
    fun c hc => List.mem_takeWhile_imp hc
  split at hh
  · rename_i t heq
    injection hh with hhl hhr
    right
    exact ⟨li.takeWhile jsWsChar, t.takeWhile jsWsChar, hhl.symm, hwA,
      fun c hc => List.mem_takeWhile_imp hc⟩
  · injection hh with hhl hhr
    left
    rw [← hhl]
    exact hwA

/-- `jsFindIndex` on a split list whose first block all fails. -/
theorem jsFindIndex_append {α : Type} (p : α → Bool) :
    ∀ (A : List α) (y : α) (B : List α),
      (∀ x ∈ A, p x = false) → p y = true →
      jsFindIndex p (A ++ y :: B) = some A.length := by
  intro A
  induction A with
  | nil => intro y B _ hy; simp [jsFindIndex, hy]
  | cons a A2 ih =>
    intro y B hA hy
    have ha : p a = false := hA a (by simp)
    have hrec := ih y B (fun x hx => hA x (List.mem_cons_of_mem _ hx)) hy
    rw [List.cons_append]
    show (if p a = true then some 0 else (jsFindIndex p (A2 ++ y :: B)).map (· + 1))
      = some (a :: A2).length
    rw [ha, hrec]
    rfl

/-- `getD` at the split point. -/
theorem getD_append_cons {α : Type} (d : α) :
    ∀ (A : List α) (y : α) (B : List α), (A ++ y :: B).getD A.length d = y := by
  intro A
  induction A with
  | nil => intro y B; rfl
  | cons a A2 ih => intro y B; simpa [List.getD] using ih y B

/-- `insertAt` right after the split point. -/
theorem insertAt_append_cons {α : Type} (x : α) :
    ∀ (A : List α) (y : α) (B : List α),
      insertAt x (A.length + 1) (A ++ y :: B) = A ++ y :: x :: B := by
  intro A
  induction A with
  | nil => intro y B; rfl
  | cons a A2 ih =>
    intro y B
    rw [List.cons_append]
    show a :: insertAt x (A2.length + 1) (A2 ++ y :: B) = a :: (A2 ++ y :: x :: B)
    rw [ih y B]

/-- Joining after a nonempty block of lines. -/
theorem joinLinesNl_cons_ne (rest : List (List Char)) (hrest : rest ≠ []) :
    ∀ (A : List (List Char)) (a : List Char),
      joinLinesNl ((a :: A) ++ rest) = joinLinesNl (a :: A) ++ '\n' :: joinLinesNl rest := by
  intro A
  induction A with
  | nil =>
    intro a
    rcases rest with _ | ⟨r, R⟩
    · exact absurd rfl hrest
    · rfl
  | cons b A2 ih =>
    intro a
    have h1 : joinLinesNl ((a :: b :: A2) ++ rest)
        = a ++ '\n' :: joinLinesNl ((b :: A2) ++ rest) := rfl
    have h2 : joinLinesNl (a :: b :: A2) = a ++ '\n' :: joinLinesNl (b :: A2) := rfl
    rw [h1, h2, ih b]
    simp

/-- The rebuilt `Theme Name` line splits into the same prefix and its new
text. -/
theorem headerLinePre_replaced (pre : List Char)
    (hshape : (∀ c ∈ pre, jsWsChar c = true) ∨
      (∃ a b, pre = a ++ '*' :: b ∧ (∀ c ∈ a, jsWsChar c = true) ∧ (∀ c ∈ b, jsWsChar c = true))) :
    headerLinePre (pre ++ ("Theme Name: " ++ "My Theme").data)
      = (pre, ("Theme Name: " ++ "My Theme").data) := by
  have htail : ("Theme Name: " ++ "My Theme").data = 'T' :: "heme Name: My Theme".data := rfl
  rcases hshape with ha | ⟨a, b, rfl, ha, hb⟩
  · rw [htail]
    exact headerLinePre_rebuild_nostar pre ha 'T' _ (by decide) (by decide)
  · rw [htail, List.append_assoc]
    exact headerLinePre_rebuild_star a b ha hb 'T' _ (by decide)

/-- A rebuilt `Theme Name` line matches the field pattern again, capturing
the same prefix. -/
theorem matchFieldLine_replaced (pre : List Char)
    (hshape : (∀ c ∈ pre, jsWsChar c = true) ∨
      (∃ a b, pre = a ++ '*' :: b ∧ (∀ c ∈ a, jsWsChar c = true) ∧ (∀ c ∈ b, jsWsChar c = true))) :
    matchFieldLine "theme" "name" (pre ++ ("Theme Name: " ++ "My Theme").data)
      = some (pre, "My Theme".data) := by
  rw [matchFieldLine_eq, headerLinePre_replaced pre hshape]
  rfl

/-- C6: for every `style.css` whose header scan finds a `Theme Name:` line
(within 200 lines, before the header terminator) and whose `Text Domain`
scan then finds nothing, `applyThemeMeta` with display name `My Theme` and
slug `my-theme` writes contents in which the line `Theme Name: My Theme`
is immediately followed by the line `Text Domain: my-theme` (both carrying
the original comment prefix); and when `style.css` is absent the step only
warns (outcome `missing`) — the rewrite has no failing outcome. -/
theorem applyThemeMeta_rewrite_postcondition (raw : String) (lines1 : List (List Char))
    (h1 : replaceFieldLoop "theme" "name" ("Theme Name: " ++ "My Theme") 200 (splitCssLines raw)
      = some lines1)
    (h2 : replaceFieldLoop "text" "domain" ("Text Domain: " ++ "my-theme") 200 lines1 = none) :
    (∃ (A' pre B' : List Char),
      (applyThemeMetaContent raw "My Theme" "my-theme").data
        = A' ++ (pre ++ ("Theme Name: " ++ "My Theme").data)
            ++ '\n' :: ((pre ++ ("Text Domain: " ++ "my-theme").data) ++ B') ∧
      (A' = [] ∨ A'.getLast? = some '\n') ∧
      (B' = [] ∨ B'.head? = some '\n')) ∧
    (∀ dn sl : String, applyThemeMetaRun none dn sl = MetaOutcome.missing) := by
  refine ⟨?_, fun dn sl => rfl⟩
  obtain ⟨A, li, B, pre, val, hsplit, hA, hmatch, hout⟩ :=
    replaceFieldLoop_some "theme" "name" ("Theme Name: " ++ "My Theme")
      (splitCssLines raw) 200 lines1 h1
  have hshape := matchFieldLine_pre_shape _ _ _ _ _ hmatch
  have hrepl := matchFieldLine_replaced pre hshape
  have hpreR := headerLinePre_replaced pre hshape
  have hfind : jsFindIndex (fun l => (matchFieldLine "theme" "name" l).isSome)
      (A ++ (pre ++ ("Theme Name: " ++ "My Theme").data) :: B) = some A.length :=
    jsFindIndex_append _ A _ B
      (fun x hx => by rw [(hA x hx).1]; rfl)
      (by rw [hrepl]; rfl)
  have hget : (A ++ (pre ++ ("Theme Name: " ++ "My Theme").data) :: B).getD A.length []
      = pre ++ ("Theme Name: " ++ "My Theme").data := getD_append_cons [] A _ B
  have hins : insertAt (pre ++ ("Text Domain: " ++ "my-theme").data) (A.length + 1)
      (A ++ (pre ++ ("Theme Name: " ++ "My Theme").data) :: B)
      = A ++ (pre ++ ("Theme Name: " ++ "My Theme").data)
          :: (pre ++ ("Text Domain: " ++ "my-theme").data) :: B :=
    insertAt_append_cons _ A _ B
  have hcontent : applyThemeMetaContent raw "My Theme" "my-theme"
      = String.mk (joinLinesNl (A ++ (pre ++ ("Theme Name: " ++ "My Theme").data)
          :: (pre ++ ("Text Domain: " ++ "my-theme").data) :: B)) := by
    unfold applyThemeMetaContent
    dsimp only
    rw [h1]
    simp only [Option.getD_some, Option.isSome_some]
    have hne : ¬(("my-theme" : String) = "") := by decide
    rw [if_neg hne]
    rw [h2]
    simp only [Option.getD_none, Option.isSome_none]
    have hcond : (!decide (("my-theme" : String) = "") && !false && true) = true := by decide
    rw [if_pos hcond]
    rw [hout, hfind]
    dsimp only
    rw [hget, hpreR]
    dsimp only
    rw [hins]
    simp
  rw [hcontent]
  have hBpart : ∃ B', joinLinesNl ((pre ++ ("Text Domain: " ++ "my-theme").data) :: B)
      = (pre ++ ("Text Domain: " ++ "my-theme").data) ++ B' ∧
      (B' = [] ∨ B'.head? = some '\n') := by
    rcases B with _ | ⟨b, B2⟩
    · exact ⟨[], by simp [joinLinesNl], Or.inl rfl⟩
    · exact ⟨'\n' :: joinLinesNl (b :: B2), rfl, Or.inr rfl⟩
  obtain ⟨B', hB', hB'prop⟩ := hBpart
  rcases A with _ | ⟨a0, A2⟩
  · refine ⟨[], pre, B', ?_, Or.inl rfl, hB'prop⟩
    have : joinLinesNl ([] ++ (pre ++ ("Theme Name: " ++ "My Theme").data)
        :: (pre ++ ("Text Domain: " ++ "my-theme").data) :: B)
        = (pre ++ ("Theme Name: " ++ "My Theme").data)
          ++ '\n' :: joinLinesNl ((pre ++ ("Text Domain: " ++ "my-theme").data) :: B) := rfl
    rw [show (String.mk (joinLinesNl ([] ++ (pre ++ ("Theme Name: " ++ "My Theme").data)
        :: (pre ++ ("Text Domain: " ++ "my-theme").data) :: B))).data
        = joinLinesNl ([] ++ (pre ++ ("Theme Name: " ++ "My Theme").data)
        :: (pre ++ ("Text Domain: " ++ "my-theme").data) :: B) from rfl, this, hB']
    simp
  · refine ⟨joinLinesNl (a0 :: A2) ++ ['\n'], pre, B', ?_, Or.inr (List.getLast?_concat _), hB'prop⟩
    rw [show (String.mk (joinLinesNl ((a0 :: A2) ++ (pre ++ ("Theme Name: " ++ "My Theme").data)
        :: (pre ++ ("Text Domain: " ++ "my-theme").data) :: B))).data
        = joinLinesNl ((a0 :: A2) ++ (pre ++ ("Theme Name: " ++ "My Theme").data)
        :: (pre ++ ("Text Domain: " ++ "my-theme").data) :: B) from rfl]
    rw [joinLinesNl_cons_ne _ (by simp) A2 a0]
    have : joinLinesNl ((pre ++ ("Theme Name: " ++ "My Theme").data)
        :: (pre ++ ("Text Domain: " ++ "my-theme").data) :: B)
        = (pre ++ ("Theme Name: " ++ "My Theme").data)
          ++ '\n' :: joinLinesNl ((pre ++ ("Text Domain: " ++ "my-theme").data) :: B) := rfl
    rw [this, hB']
    simp

/-- Witness for C6: a concrete `style.css` with a `Theme Name: Old Name`
header line and no `Text Domain` line. -/
theorem applyThemeMeta_rewrite_postcondition_witness :
    (∃ (A' pre B' : List Char),
      (applyThemeMetaContent "/*\nTheme Name: Old Name\n*/\nbody" "My Theme" "my-theme").data
        = A' ++ (pre ++ ("Theme Name: " ++ "My Theme").data)
            ++ '\n' :: ((pre ++ ("Text Domain: " ++ "my-theme").data) ++ B') ∧
      (A' = [] ∨ A'.getLast? = some '\n') ∧
      (B' = [] ∨ B'.head? = some '\n')) ∧
    (∀ dn sl : String, applyThemeMetaRun none dn sl = MetaOutcome.missing) :=
  applyThemeMeta_rewrite_postcondition "/*\nTheme Name: Old Name\n*/\nbody"
    ["/*".data, ("Theme Name: " ++ "My Theme").data, "*/".data, "body".data]
    (by decide) (by decide)

/-- C10: when the header scan finds no `Theme Name:` line but finds a
`Text Domain:` line, `applyThemeMeta` rewrites only that line's value to
the folder slug — the written contents are the original lines with the one
`Text Domain` line replaced, no `Theme Name` line added, no synthetic
header; and the synthetic header is prepended exactly when neither field
was found. -/
theorem applyThemeMeta_domain_only (raw dn slug : String) (lines2 : List (List Char))
    (hs : ¬(slug = ""))
    (h1 : replaceFieldLoop "theme" "name" ("Theme Name: " ++ dn) 200 (splitCssLines raw) = none)
    (h2 : replaceFieldLoop "text" "domain" ("Text Domain: " ++ slug) 200 (splitCssLines raw)
      = some lines2) :
    applyThemeMetaContent raw dn slug = String.mk (joinLinesNl lines2) ∧
    (∃ (A : List (List Char)) (li : List Char) (B : List (List Char)) (pre val : List Char),
      splitCssLines raw = A ++ li :: B ∧
      matchFieldLine "text" "domain" li = some (pre, val) ∧
      lines2 = A ++ (pre ++ ("Text Domain: " ++ slug).data) :: B) ∧
    (∀ raw' dn' sl' : String, ¬(sl' = "") →
      replaceFieldLoop "theme" "name" ("Theme Name: " ++ dn') 200 (splitCssLines raw') = none →
      replaceFieldLoop "text" "domain" ("Text Domain: " ++ sl') 200 (splitCssLines raw') = none →
      applyThemeMetaContent raw' dn' sl' = syntheticHeaderText dn' sl' ++ raw') := by
  refine ⟨?_, ?_, ?_⟩
  · unfold applyThemeMetaContent
    dsimp only
    rw [h1]
    simp only [Option.getD_none, Option.isSome_none]
    rw [if_neg hs]
    rw [h2]
    simp only [Option.getD_some, Option.isSome_some]
    simp
  · obtain ⟨A, li, B, pre, val, hsp, hA, hm, hout⟩ :=
      replaceFieldLoop_some "text" "domain" ("Text Domain: " ++ slug) (splitCssLines raw) 200
        lines2 h2
    exact ⟨A, li, B, pre, val, hsp, hm, hout⟩
  · intro raw' dn' sl' hs' h1' h2'
    unfold applyThemeMetaContent
    dsimp only
    rw [h1']
    simp only [Option.getD_none, Option.isSome_none]
    rw [if_neg hs']
    rw [h2']
    simp only [Option.getD_none, Option.isSome_none]
    simp

/-- Witness for C10: a concrete `style.css` with a `Text Domain` line and
no `Theme Name` line. -/
theorem applyThemeMeta_domain_only_witness :
    applyThemeMetaContent "/*\nText Domain: old\n*/\n" "X" "my-theme"
      = String.mk (joinLinesNl
          ["/*".data, ("Text Domain: " ++ "my-theme").data, "*/".data, "".data]) ∧
    (∃ (A : List (List Char)) (li : List Char) (B : List (List Char)) (pre val : List Char),
      splitCssLines "/*\nText Domain: old\n*/\n" = A ++ li :: B ∧
      matchFieldLine "text" "domain" li = some (pre, val) ∧
      ["/*".data, ("Text Domain: " ++ "my-theme").data, "*/".data, "".data]
        = A ++ (pre ++ ("Text Domain: " ++ "my-theme").data) :: B) ∧
    (∀ raw' dn' sl' : String, ¬(sl' = "") →
      replaceFieldLoop "theme" "name" ("Theme Name: " ++ dn') 200 (splitCssLines raw') = none →
      replaceFieldLoop "text" "domain" ("Text Domain: " ++ sl') 200 (splitCssLines raw') = none →
      applyThemeMetaContent raw' dn' sl' = syntheticHeaderText dn' sl' ++ raw') :=
  applyThemeMeta_domain_only "/*\nText Domain: old\n*/\n" "X" "my-theme"
    ["/*".data, ("Text Domain: " ++ "my-theme").data, "*/".data, "".data]
    (by decide) (by decide) (by decide)
